import Mathlib

/-!
# HidRawSensor: decoding of HID report fields

A shallow embedding of `HidRawSensor::getReportFieldValue`
(`modules/sensors/dynamic_sensor/HidRawSensor.h`) and of the head-tracker
capability constants declared in the same header, together with theorems about
them.

Conventions of the embedding.

* A `uint8_t` is a `Fin 256`; a `std::vector<uint8_t>` is a `List Byte`.
  `message[i]` has no bounds check in the source, so an access at or beyond the
  length is undefined behaviour there; here such an access makes the whole call
  produce `none`.
* `size_t` values are natural numbers and `size_t` arithmetic is taken
  modulo `2 ^ 64`.
* The local `int64_t v` is carried as its 64-bit two's-complement bit pattern
  (a natural number below `2 ^ 64`) while bytes are shifted in, and read back
  as a signed integer by `toInt64`. Signed arithmetic wraps.
* `double` arithmetic and the conversions performed by the assignment to
  `*value` (whose type is the template parameter `ValueType`) are parameters of
  the embedding, collected in `ValueOps`. The instances `ieeeDouble` and
  `ieeeFloat` supply IEEE 754 binary64 arithmetic (round to nearest, ties to
  even) for outputs of type `double` and `float`.
-/

namespace HidRawSensor

/-! ## Data model -/

/-- A `uint8_t`. -/
abbrev Byte := Fin 256

/-- Enumerator `TYPE_FLOAT` of the anonymous enum (first enumerator, value 0). -/
def TYPE_FLOAT : Int := 0

/-- Enumerator `TYPE_INT64` (value 1). -/
def TYPE_INT64 : Int := 1

/-- Enumerator `TYPE_ACCURACY` (value 2). -/
def TYPE_ACCURACY : Int := 2

/-- The struct `ReportTranslateRecord`. `F` stands for `double`; the `int` and
`int64_t` fields are integers, the `size_t` fields natural numbers. -/
structure ReportTranslateRecord (F : Type) where
  type : Int
  index : Int
  maxValue : Int
  minValue : Int
  byteOffset : Nat
  byteSize : Nat
  a : F
  b : Int

/-- The arithmetic that `getReportFieldValue<ValueType>` borrows from the
language: `toDouble` converts the `int64_t` sum `v + rec->b` to `double`, `mul`
is `double` multiplication, and `assignDouble` / `assignInt64` are the
conversions done when a `double` / an `int64_t` is stored into `*value`. -/
structure ValueOps (F V : Type) where
  toDouble : Int → F
  mul : F → F → F
  assignDouble : F → V
  assignInt64 : Int → V

/-! ## Machine arithmetic -/

/-- Addition of two `size_t` values. -/
def sizeAdd (x y : Nat) : Nat := (x + y) % 2 ^ 64

/-- Subtraction of two `size_t` values. -/
def sizeSub (x y : Nat) : Nat := (x + (2 ^ 64 - y % 2 ^ 64)) % 2 ^ 64

/-- The signed value of a 64-bit two's-complement bit pattern. -/
def toInt64 (bits : Nat) : Int :=
  if bits % 2 ^ 64 < 2 ^ 63 then ((bits % 2 ^ 64 : Nat) : Int)
  else ((bits % 2 ^ 64 : Nat) : Int) - 2 ^ 64

/-- The 64-bit two's-complement bit pattern of an integer. -/
def bitsOfInt64 (x : Int) : Nat := (x % 2 ^ 64).toNat

/-- The result of an `int64_t` operation whose mathematical value is `x`. -/
def wrapInt64 (x : Int) : Int := toInt64 (bitsOfInt64 x)

/-- The conversion `static_cast<int>` of a `size_t`: the low 32 bits, signed. -/
def toInt32 (n : Nat) : Int :=
  if n % 2 ^ 32 < 2 ^ 31 then ((n % 2 ^ 32 : Nat) : Int)
  else ((n % 2 ^ 32 : Nat) : Int) - 2 ^ 32

/-- The result of an `int` operation whose mathematical value is `x`. -/
def wrapInt32 (x : Int) : Int := toInt32 (x % 2 ^ 32).toNat

/-! ## getReportFieldValue -/

/-- Lines 161-164: `v` starts at 0; when `rec->minValue < 0` it is set to -1
(all bits one) if bit `0x80` of `message[byteOffset + byteSize - 1]` is set and
to 0 otherwise. The result is the bit pattern of `v`. -/
def signFill {F : Type} (message : List Byte) (rec : ReportTranslateRecord F) : Option Nat :=
  if rec.minValue < 0 then
    (message[sizeSub (sizeAdd rec.byteOffset rec.byteSize) 1]?).map
      fun top => if top.val &&& 0x80 ≠ 0 then bitsOfInt64 (-1) else 0
  else some 0

/-- Lines 166-168, the loop body `v = (v << 8) | message[byteOffset + i]` run
for `i = n - 1` down to `0`, where the first argument is `n` (one more than the
current `i`) and the second the bit pattern of `v`. -/
def shiftInLoop (message : List Byte) (byteOffset : Nat) : Nat → Nat → Option Nat
  | 0, v => some v
  | i + 1, v =>
    (message[sizeAdd byteOffset i]?).bind
      fun byte => shiftInLoop message byteOffset i (((v <<< 8) % 2 ^ 64) ||| byte.val)

/-- The number of iterations of `for (int i = static_cast<int>(byteSize) - 1;
i >= 0; --i)`: the start value plus one when the start value is not negative,
and zero otherwise. -/
def loopCount (byteSize : Nat) : Nat := (wrapInt32 (toInt32 byteSize - 1) + 1).toNat

/-- Lines 161-168: the raw integer `v` that `getReportFieldValue` reconstructs
from the message, as a signed 64-bit value. -/
def rawValue {F : Type} (message : List Byte) (rec : ReportTranslateRecord F) : Option Int :=
  (signFill message rec).bind fun v0 =>
    (shiftInLoop message rec.byteOffset (loopCount rec.byteSize) v0).map toInt64

/-- The member function template `getReportFieldValue` (lines 157-183). The last
argument is the content of `*value` before the call; the result is the returned
flag together with the content of `*value` after the call. -/
def getReportFieldValue {F V : Type} (ops : ValueOps F V) (message : List Byte)
    (rec : ReportTranslateRecord F) (value : V) : Option (Bool × V) :=
  (rawValue message rec).map fun v =>
    let valid := !(decide (v > rec.maxValue) || decide (v < rec.minValue))
    let value' :=
      if rec.type = TYPE_FLOAT then
        ops.assignDouble (ops.mul rec.a (ops.toDouble (wrapInt64 (v + rec.b))))
      else if rec.type = TYPE_INT64 then
        ops.assignInt64 (wrapInt64 (v + rec.b))
      else value
    (valid, value')

/-! ## Instances of the arithmetic used for concrete evaluation -/

/-- The instance `ValueType = int64_t`, with `double` idealised as exact
rationals; a `double` stored into an `int64_t` is truncated toward zero. -/
def exactInt64 : ValueOps ℚ Int where
  toDouble n := (n : ℚ)
  mul x y := x * y
  assignDouble x := wrapInt64 (Int.tdiv x.num x.den)
  assignInt64 n := n

/-- The instance `ValueType = double`, with `double` idealised as exact
rationals (exact on every value that a `double` represents exactly). -/
def exactDouble : ValueOps ℚ ℚ where
  toDouble n := (n : ℚ)
  mul x y := x * y
  assignDouble x := x
  assignInt64 n := (n : ℚ)

/-! ## Reference definitions used in the statements -/

/-- Following the spec's words ("accumulating bytes least-significant-first"):
the value of the `n` bytes at `byteOffset`, starting from the byte at
`byteOffset` with weight 1 and adding each next byte with 256 times the weight
of the one before. -/
def accumulateLsbFirst (message : List Byte) (byteOffset : Nat) : Nat → Nat
  | 0 => 0
  | n + 1 =>
    accumulateLsbFirst message byteOffset n + (message.getD (byteOffset + n) 0).val * 256 ^ n

/-- The `n` little-endian two's-complement bytes of the integer `x`. -/
def encodeLE : Nat → Int → List Byte
  | 0, _ => []
  | n + 1, x => Fin.ofNat (x % 256).toNat :: encodeLE n (x / 256)

/-- The little-endian value of a byte string: the first byte has weight 1. -/
def leValue : List Byte → Nat
  | [] => 0
  | b :: bs => b.val + 256 * leValue bs

/-- Writing `bytes` into `message` at position `byteOffset`, over the bytes that
were there. -/
def writeField (message : List Byte) (byteOffset : Nat) (bytes : List Byte) : List Byte :=
  message.take byteOffset ++ bytes ++ message.drop (byteOffset + bytes.length)

/-! ## The indices read by getReportFieldValue -/

/-- The indices at which the loop of lines 166-168 indexes `message`, in the
order of the accesses: `byteOffset + i` for `i = n - 1` down to `0`. -/
def loopIndices (byteOffset : Nat) : Nat → List Nat
  | 0 => []
  | i + 1 => sizeAdd byteOffset i :: loopIndices byteOffset i

/-- Every index at which lines 163 and 167 index `message`, in the order of the
accesses: the sign byte when `rec->minValue < 0`, then the indices of the loop.
They depend on the record only. -/
def accessedIndices {F : Type} (rec : ReportTranslateRecord F) : List Nat :=
  (if rec.minValue < 0 then [sizeSub (sizeAdd rec.byteOffset rec.byteSize) 1] else [])
    ++ loopIndices rec.byteOffset (loopCount rec.byteSize)

/-! ## IEEE 754 arithmetic -/

/-- A binary floating-point datum: a finite number, an infinity or a NaN. The
sign of zero and the payload of a NaN are not tracked. -/
inductive Fp where
  | finite (q : ℚ)
  | posInf
  | negInf
  | nan
deriving DecidableEq

/-- Rounding of a rational to the nearest integer, ties to the even one. -/
def roundHalfEven (q : ℚ) : Int :=
  if q - ⌊q⌋ < 1 / 2 then ⌊q⌋
  else if 1 / 2 < q - ⌊q⌋ then ⌊q⌋ + 1
  else if ⌊q⌋ % 2 = 0 then ⌊q⌋ else ⌊q⌋ + 1

/-- Rounding of a rational to a binary format with `precision` significand
bits and exponent range `emin .. emax`, to nearest and ties to even: the result
is a multiple of the unit in the last place of the binade of `q` (of the
smallest binade for a subnormal), and overflows to an infinity when it reaches
`2 ^ (emax + 1)`. -/
def roundToFormat (precision : Nat) (emin emax : Int) (q : ℚ) : Fp :=
  if q = 0 then Fp.finite 0
  else
    let ulp : ℚ := 2 ^ (max (Int.log 2 |q|) emin - ((precision : Int) - 1))
    let r : ℚ := roundHalfEven (q / ulp) * ulp
    if (2 : ℚ) ^ (emax + 1) ≤ |r| then (if 0 < q then Fp.posInf else Fp.negInf)
    else Fp.finite r

/-- Rounding to `double` (binary64). -/
def roundDouble (q : ℚ) : Fp := roundToFormat 53 (-1022) 1023 q

/-- Rounding to `float` (binary32). -/
def roundFloat (q : ℚ) : Fp := roundToFormat 24 (-126) 127 q

/-- Multiplication of two `double` values. -/
def mulDouble : Fp → Fp → Fp
  | Fp.nan, _ => Fp.nan
  | _, Fp.nan => Fp.nan
  | Fp.finite x, Fp.finite y => roundDouble (x * y)
  | Fp.finite x, Fp.posInf => if x = 0 then Fp.nan else if 0 < x then Fp.posInf else Fp.negInf
  | Fp.finite x, Fp.negInf => if x = 0 then Fp.nan else if 0 < x then Fp.negInf else Fp.posInf
  | Fp.posInf, Fp.finite y => if y = 0 then Fp.nan else if 0 < y then Fp.posInf else Fp.negInf
  | Fp.negInf, Fp.finite y => if y = 0 then Fp.nan else if 0 < y then Fp.negInf else Fp.posInf
  | Fp.posInf, Fp.posInf => Fp.posInf
  | Fp.posInf, Fp.negInf => Fp.negInf
  | Fp.negInf, Fp.posInf => Fp.negInf
  | Fp.negInf, Fp.negInf => Fp.posInf

/-- Conversion of a `double` to `float`. -/
def narrowToFloat : Fp → Fp
  | Fp.finite q => roundFloat q
  | x => x

/-- The instance `ValueType = double` with IEEE 754 binary64 arithmetic. -/
def ieeeDouble : ValueOps Fp Fp where
  toDouble n := roundDouble (n : ℚ)
  mul := mulDouble
  assignDouble x := x
  assignInt64 n := roundDouble (n : ℚ)

/-- The instance `ValueType = float`: the arithmetic is done in binary64 and the
result is converted to binary32 when it is stored. -/
def ieeeFloat : ValueOps Fp Fp where
  toDouble n := roundDouble (n : ℚ)
  mul := mulDouble
  assignDouble := narrowToFloat
  assignInt64 n := roundFloat (n : ℚ)

/-! ## Head-tracker description -/

/-- Member constant `kLeAudioCapabilitiesMajorVersion` (line 239): the first
major version in which LE audio capabilities are encoded. -/
def kLeAudioCapabilitiesMajorVersion : Nat := 2

/-- Member constant `kAclBitMask` (line 240). -/
def kAclBitMask : Nat := 0x1

/-- Member constant `kIsoBitMask` (line 241). -/
def kIsoBitMask : Nat := 0x2

/-- Modelled from the spec: the transport flags that head-tracker detection
leaves behind (the body of `detectAndroidHeadTrackerSensor` and the state it
sets are not part of the header). -/
structure LeAudioTransports where
  acl : Bool
  iso : Bool
deriving DecidableEq

/-- Modelled from the spec: matching of a literal piece of the pattern, for
`detectAndroidHeadTrackerSensor`, whose body is not part of the header. The
result is the text after the piece. -/
def expectChars : List Char → List Char → Option (List Char)
  | [], cs => some cs
  | _ :: _, [] => none
  | p :: ps, c :: cs => if p = c then expectChars ps cs else none

/-- Modelled from the spec: the longest run of decimal digits at the start of a
text, and the text after it, for `detectAndroidHeadTrackerSensor`, whose body is
not part of the header. -/
def spanDigits : List Char → List Char × List Char
  | [] => ([], [])
  | c :: cs =>
    if c.isDigit then ((c :: (spanDigits cs).1), (spanDigits cs).2) else ([], c :: cs)

/-- Modelled from the spec: the number written by a run of decimal digits, for
`detectAndroidHeadTrackerSensor`, whose body is not part of the header. -/
def decimalValue (ds : List Char) : Nat :=
  ds.foldl (fun acc c => 10 * acc + (c.toNat - 48)) 0

/-- Modelled from the spec: reading of one integer of the pattern (`<major>`,
`<minor>` or `<capability>`), which needs at least one digit, for
`detectAndroidHeadTrackerSensor`, whose body is not part of the header. -/
def readNumber (cs : List Char) : Option (Nat × List Char) :=
  match spanDigits cs with
  | ([], _) => none
  | (d :: ds, rest) => some (decimalValue (d :: ds), rest)

/-- Modelled from the spec: `HidRawSensor::detectAndroidHeadTrackerSensor`, which
the header only declares (line 139). The description is matched against
`#AndroidHeadTracker#<major>.<minor>#<capability>`; `none` is "no match" (the
function returns `false`) and `some t` is a match with transport flags `t`. For
a major version of at least `kLeAudioCapabilitiesMajorVersion` the trailing
integer is a bitmask, bit `kAclBitMask` for ACL and bit `kIsoBitMask` for ISO;
below it the capability field may be absent and is ignored, and no transport is
flagged. A malformed version or capability is no match. -/
def detectAndroidHeadTrackerSensor (description : String) : Option LeAudioTransports :=
  match expectChars "#AndroidHeadTracker#".toList description.toList with
  | none => none
  | some afterTag =>
    match readNumber afterTag with
    | some (major, '.' :: afterDot) =>
      match readNumber afterDot with
      | none => none
      | some (_, afterMinor) =>
        if kLeAudioCapabilitiesMajorVersion ≤ major then
          match afterMinor with
          | '#' :: capabilityText =>
            match readNumber capabilityText with
            | some (capability, []) =>
              some { acl := capability &&& kAclBitMask != 0,
                     iso := capability &&& kIsoBitMask != 0 }
            | _ => none
          | _ => none
        else
          match afterMinor with
          | [] => some { acl := false, iso := false }
          | '#' :: capabilityText =>
            match readNumber capabilityText with
            | some (_, []) => some { acl := false, iso := false }
            | _ => none
          | _ => none
    | _ => none

/-! ## Arithmetic lemmas -/

theorem loopCount_small (n : Nat) (h : n < 2 ^ 31) : loopCount n = n := by
  unfold loopCount wrapInt32 toInt32
  split <;> split <;> omega

theorem loopCount_le (n : Nat) : loopCount n ≤ n := by
  unfold loopCount wrapInt32 toInt32
  split <;> split <;> omega

set_option maxRecDepth 100000 in
theorem highBit_iff (b : Byte) : (b.val &&& 0x80 ≠ 0) ↔ 128 ≤ b.val := by
  revert b; decide

theorem shiftIn_eq (v : Nat) (b : Byte) :
    ((v <<< 8) % 2 ^ 64) ||| b.val = (v * 256) % 2 ^ 64 + b.val := by
  have hb : b.val < 2 ^ 8 := b.isLt
  have h1 : (v <<< 8) % 2 ^ 64 = 2 ^ 8 * (v % 2 ^ 56) := by
    rw [Nat.shiftLeft_eq, Nat.mul_comm v, show (2:Nat) ^ 64 = 2 ^ 8 * 2 ^ 56 by norm_num,
      Nat.mul_mod_mul_left]
  have h2 : (v * 256) % 2 ^ 64 = 2 ^ 8 * (v % 2 ^ 56) := by
    rw [Nat.mul_comm v, show (256:Nat) = 2 ^ 8 by norm_num,
      show (2:Nat) ^ 64 = 2 ^ 8 * 2 ^ 56 by norm_num, Nat.mul_mod_mul_left]
  rw [h1, h2, Nat.mul_add_lt_is_or hb]

theorem accumulateLsbFirst_eq_sum (message : List Byte) (off n : Nat) :
    accumulateLsbFirst message off n
      = ∑ i in Finset.range n, (message.getD (off + i) 0).val * 256 ^ i := by
  induction n with
  | zero => simp [accumulateLsbFirst]
  | succ k ih => rw [accumulateLsbFirst, ih, Finset.sum_range_succ]

theorem accumulateLsbFirst_lt (message : List Byte) (off n : Nat) :
    accumulateLsbFirst message off n < 256 ^ n := by
  induction n with
  | zero => simp [accumulateLsbFirst]
  | succ k ih =>
    rw [accumulateLsbFirst, pow_succ]
    have hb : (message.getD (off + k) 0).val < 256 := (message.getD (off + k) 0).isLt
    have hp : 0 < 256 ^ k := Nat.pow_pos (by norm_num)
    nlinarith

/-! ## The loop -/

theorem getElem?_eq_getD {message : List Byte} {i : Nat} (h : i < message.length) :
    message[i]? = some (message.getD i 0) := by
  simp [List.getD, List.getElem?_eq_getElem h]

theorem shiftInLoop_eq (message : List Byte) (off : Nat) (hsize : message.length ≤ 2 ^ 64) :
    ∀ (n v : Nat), v < 2 ^ 64 → off + n ≤ message.length →
      shiftInLoop message off n v
        = some ((v * 256 ^ n + accumulateLsbFirst message off n) % 2 ^ 64) := by
  intro n
  induction n with
  | zero =>
    intro v hv _
    simp only [shiftInLoop, accumulateLsbFirst, pow_zero, mul_one, add_zero]
    rw [Nat.mod_eq_of_lt hv]
  | succ k ih =>
    intro v _ hlen
    have hidx : sizeAdd off k = off + k := Nat.mod_eq_of_lt (by omega)
    have hb : (message.getD (off + k) 0).val < 256 := (message.getD (off + k) 0).isLt
    have hlt : (v * 256) % 2 ^ 64 + (message.getD (off + k) 0).val < 2 ^ 64 := by omega
    rw [shiftInLoop, hidx, getElem?_eq_getD (by omega), Option.some_bind, shiftIn_eq,
      ih _ hlt (by omega), accumulateLsbFirst]
    congr 1
    have h : (v * 256) % 2 ^ 64 + (message.getD (off + k) 0).val
        ≡ v * 256 + (message.getD (off + k) 0).val [MOD 2 ^ 64] :=
      Nat.ModEq.add_right _ (Nat.mod_modEq _ _)
    have h2 := (h.mul_right (256 ^ k)).add_right (accumulateLsbFirst message off k)
    unfold Nat.ModEq at h2
    rw [h2]
    congr 1
    ring

/-! ## The reconstructed raw value -/

theorem signFill_nonneg {F : Type} (message : List Byte) (rec : ReportTranslateRecord F)
    (hmin : 0 ≤ rec.minValue) : signFill message rec = some 0 := by
  unfold signFill
  rw [if_neg (by omega)]

theorem signIndex_eq (off size : Nat) (hpos : 1 ≤ off + size) (hle : off + size ≤ 2 ^ 64) :
    sizeSub (sizeAdd off size) 1 = off + size - 1 := by
  unfold sizeSub sizeAdd
  omega

theorem signFill_neg {F : Type} (message : List Byte) (rec : ReportTranslateRecord F)
    (hmin : rec.minValue < 0) (hpos : 1 ≤ rec.byteOffset + rec.byteSize)
    (hlen : rec.byteOffset + rec.byteSize ≤ message.length) (hsize : message.length < 2 ^ 64) :
    signFill message rec
      = some (if 128 ≤ (message.getD (rec.byteOffset + rec.byteSize - 1) 0).val
          then 2 ^ 64 - 1 else 0) := by
  unfold signFill
  rw [if_pos hmin, signIndex_eq _ _ hpos (by omega), getElem?_eq_getD (by omega), Option.map_some']
  congr 1
  by_cases h : 128 ≤ (message.getD (rec.byteOffset + rec.byteSize - 1) 0).val
  · rw [if_pos ((highBit_iff _).2 h), if_pos h]; rfl
  · rw [if_neg (fun hc => h ((highBit_iff _).1 hc)), if_neg h]

theorem accumulateLsbFirst_top (message : List Byte) (off n : Nat) (h1 : 1 ≤ n) :
    (128 ≤ (message.getD (off + n - 1) 0).val
      ↔ 128 * 256 ^ (n - 1) ≤ accumulateLsbFirst message off n) := by
  obtain ⟨k, rfl⟩ : ∃ k, n = k + 1 := ⟨n - 1, by omega⟩
  have hlow := accumulateLsbFirst_lt message off k
  have hq : 0 < 256 ^ k := Nat.pow_pos (by norm_num)
  simp only [accumulateLsbFirst, Nat.add_sub_cancel, show off + (k + 1) - 1 = off + k by omega]
  constructor
  · intro h
    have := Nat.mul_le_mul_right (256 ^ k) h
    omega
  · intro h
    by_contra hc
    have h127 : (message.getD (off + k) 0).val ≤ 127 := by omega
    have := Nat.mul_le_mul_right (256 ^ k) h127
    omega

theorem toInt64_signExtended_aux (Q S : Nat) (hq : 0 < Q) (hq7 : Q ≤ 2 ^ 56)
    (hS : S < Q * 256) (htop : 128 * Q ≤ S) :
    toInt64 (((2 ^ 64 - 1) * (Q * 256) + S) % 2 ^ 64) = (S : Int) - (Q : Int) * 256 := by
  unfold toInt64
  split <;> omega

theorem toInt64_signExtended (n S : Nat) (h1 : 1 ≤ n) (h8 : n ≤ 8) (hS : S < 256 ^ n)
    (htop : 128 * 256 ^ (n - 1) ≤ S) :
    toInt64 (((2 ^ 64 - 1) * 256 ^ n + S) % 2 ^ 64) = (S : Int) - 256 ^ n := by
  obtain ⟨k, rfl⟩ : ∃ k, n = k + 1 := ⟨n - 1, by omega⟩
  have hq : 0 < 256 ^ k := Nat.pow_pos (by norm_num)
  have hq7 : 256 ^ k ≤ 2 ^ 56 :=
    le_trans (Nat.pow_le_pow_right (by norm_num) (show k ≤ 7 by omega)) (by norm_num)
  simp only [Nat.add_sub_cancel] at htop
  rw [pow_succ] at hS
  have h := toInt64_signExtended_aux (256 ^ k) S hq hq7 hS htop
  rw [pow_succ, pow_succ]
  push_cast at h
  exact h

theorem toInt64_small (S : Nat) (h : S < 2 ^ 63) : toInt64 S = (S : Int) := by
  unfold toInt64
  have : S % 2 ^ 64 = S := Nat.mod_eq_of_lt (by omega)
  rw [this, if_pos h]

theorem rawValue_eq {F : Type} (message : List Byte) (rec : ReportTranslateRecord F)
    (hlen : rec.byteOffset + rec.byteSize ≤ message.length) (hsize : message.length < 2 ^ 64)
    (hok : 0 ≤ rec.minValue ∨ 1 ≤ rec.byteOffset + rec.byteSize) :
    rawValue message rec
      = some (toInt64
          (((if rec.minValue < 0
                ∧ 128 ≤ (message.getD (rec.byteOffset + rec.byteSize - 1) 0).val
              then 2 ^ 64 - 1 else 0) * 256 ^ loopCount rec.byteSize
            + accumulateLsbFirst message rec.byteOffset (loopCount rec.byteSize)) % 2 ^ 64)) := by
  have hc := loopCount_le rec.byteSize
  unfold rawValue
  by_cases hmin : rec.minValue < 0
  · rw [signFill_neg message rec hmin (by omega) hlen hsize, Option.some_bind]
    by_cases htop : 128 ≤ (message.getD (rec.byteOffset + rec.byteSize - 1) 0).val
    · rw [if_pos htop, if_pos ⟨hmin, htop⟩,
        shiftInLoop_eq message _ (by omega) _ _ (by norm_num) (by omega), Option.map_some']
    · rw [if_neg htop, if_neg (fun h => htop h.2),
        shiftInLoop_eq message _ (by omega) _ _ (by norm_num) (by omega), Option.map_some']
  · rw [signFill_nonneg message rec (by omega), Option.some_bind, if_neg (fun h => hmin h.1),
      shiftInLoop_eq message _ (by omega) _ _ (by norm_num) (by omega), Option.map_some']

theorem rawValue_defined {F : Type} (message : List Byte) (rec : ReportTranslateRecord F)
    (hlen : rec.byteOffset + rec.byteSize ≤ message.length) (hsize : message.length < 2 ^ 64)
    (hok : 0 ≤ rec.minValue ∨ 1 ≤ rec.byteOffset + rec.byteSize) :
    ∃ v : Int, rawValue message rec = some v :=
  ⟨_, rawValue_eq message rec hlen hsize hok⟩

theorem valid_eq (v lo hi : Int) :
    (!(decide (v > hi) || decide (v < lo))) = decide (lo ≤ v ∧ v ≤ hi) := by
  by_cases h1 : v > hi <;> by_cases h2 : v < lo <;> simp [h1, h2]
  all_goals omega

theorem getReportFieldValue_of_raw {F V : Type} (ops : ValueOps F V) (message : List Byte)
    (rec : ReportTranslateRecord F) (value : V) (v : Int) (h : rawValue message rec = some v) :
    getReportFieldValue ops message rec value
      = some (decide (rec.minValue ≤ v ∧ v ≤ rec.maxValue),
          if rec.type = TYPE_FLOAT then
            ops.assignDouble (ops.mul rec.a (ops.toDouble (wrapInt64 (v + rec.b))))
          else if rec.type = TYPE_INT64 then ops.assignInt64 (wrapInt64 (v + rec.b))
          else value) := by
  unfold getReportFieldValue
  rw [h, Option.map_some', valid_eq]

set_option maxRecDepth 100000 in
theorem testBit_seven_iff (b : Byte) : b.val.testBit 7 = true ↔ 128 ≤ b.val := by
  revert b; decide

theorem rawValue_signed {F : Type} (message : List Byte) (rec : ReportTranslateRecord F)
    (hmin : rec.minValue < 0) (h1 : 1 ≤ rec.byteSize) (h8 : rec.byteSize ≤ 8)
    (hlen : rec.byteOffset + rec.byteSize ≤ message.length) (hsize : message.length < 2 ^ 64) :
    rawValue message rec
      = some ((accumulateLsbFirst message rec.byteOffset rec.byteSize : Int)
          - (if 128 ≤ (message.getD (rec.byteOffset + rec.byteSize - 1) 0).val
              then 256 ^ rec.byteSize else 0)) := by
  rw [rawValue_eq message rec hlen hsize (Or.inr (by omega)), loopCount_small _ (by omega)]
  congr 1
  have hS := accumulateLsbFirst_lt message rec.byteOffset rec.byteSize
  have htop := accumulateLsbFirst_top message rec.byteOffset rec.byteSize h1
  by_cases h : 128 ≤ (message.getD (rec.byteOffset + rec.byteSize - 1) 0).val
  · rw [if_pos ⟨hmin, h⟩, if_pos h]
    exact toInt64_signExtended _ _ h1 h8 hS (htop.1 h)
  · rw [if_neg (fun hc => h hc.2), if_neg h, Nat.zero_mul, Nat.zero_add, sub_zero]
    have hlt : accumulateLsbFirst message rec.byteOffset rec.byteSize
        < 128 * 256 ^ (rec.byteSize - 1) := by
      by_contra hc
      exact h (htop.2 (by omega))
    have hq7 : 256 ^ (rec.byteSize - 1) ≤ 2 ^ 56 :=
      le_trans (Nat.pow_le_pow_right (by norm_num) (show rec.byteSize - 1 ≤ 7 by omega))
        (by norm_num)
    have hlt63 : accumulateLsbFirst message rec.byteOffset rec.byteSize < 2 ^ 63 := by omega
    rw [Nat.mod_eq_of_lt (by omega), toInt64_small _ hlt63]

theorem rawValue_unsigned {F : Type} (message : List Byte) (rec : ReportTranslateRecord F)
    (hmin : 0 ≤ rec.minValue) (h7 : rec.byteSize ≤ 7)
    (hlen : rec.byteOffset + rec.byteSize ≤ message.length) (hsize : message.length < 2 ^ 64) :
    rawValue message rec
      = some (accumulateLsbFirst message rec.byteOffset rec.byteSize : Int) := by
  rw [rawValue_eq message rec hlen hsize (Or.inl hmin), loopCount_small _ (by omega)]
  congr 1
  have hS := accumulateLsbFirst_lt message rec.byteOffset rec.byteSize
  have hq7 : 256 ^ rec.byteSize ≤ 2 ^ 56 :=
    le_trans (Nat.pow_le_pow_right (by norm_num) h7) (by norm_num)
  rw [if_neg (fun hc => absurd hc.1 (by omega)), Nat.zero_mul, Nat.zero_add,
    Nat.mod_eq_of_lt (by omega), toInt64_small _ (by omega)]

theorem wrapInt64_spec (x : Int) :
    -2 ^ 63 ≤ wrapInt64 x ∧ wrapInt64 x < 2 ^ 63 ∧ (wrapInt64 x - x) % 2 ^ 64 = 0 := by
  unfold wrapInt64 toInt64 bitsOfInt64
  split <;> omega

theorem wrapInt64_of_range (x : Int) (hlo : -2 ^ 63 ≤ x) (hhi : x < 2 ^ 63) :
    wrapInt64 x = x := by
  unfold wrapInt64 toInt64 bitsOfInt64
  split <;> omega

theorem rawValue_short {F : Type} (message : List Byte) (rec : ReportTranslateRecord F)
    (h1 : 1 ≤ rec.byteSize) (h31 : rec.byteSize < 2 ^ 31)
    (hend : rec.byteOffset + rec.byteSize ≤ 2 ^ 64)
    (hshort : message.length < rec.byteOffset + rec.byteSize) :
    rawValue message rec = none := by
  unfold rawValue
  by_cases hmin : rec.minValue < 0
  · unfold signFill
    rw [if_pos hmin, signIndex_eq _ _ (by omega) hend, List.getElem?_eq_none (by omega)]
    rfl
  · rw [signFill_nonneg message rec (by omega), Option.some_bind, loopCount_small _ h31]
    obtain ⟨k, hk⟩ : ∃ k, rec.byteSize = k + 1 := ⟨rec.byteSize - 1, by omega⟩
    have hidx : sizeAdd rec.byteOffset k = rec.byteOffset + k := Nat.mod_eq_of_lt (by omega)
    rw [hk, shiftInLoop, hidx, List.getElem?_eq_none (by omega)]
    rfl

theorem shiftInLoop_congr (m1 m2 : List Byte) (off : Nat) :
    ∀ (n v : Nat), off + n ≤ 2 ^ 64 → (∀ i, i < n → m1[off + i]? = m2[off + i]?) →
      shiftInLoop m1 off n v = shiftInLoop m2 off n v := by
  intro n
  induction n with
  | zero => intro v _ _; rfl
  | succ k ih =>
    intro v hend hagree
    have hidx : sizeAdd off k = off + k := Nat.mod_eq_of_lt (by omega)
    rw [shiftInLoop, shiftInLoop, hidx, hagree k (by omega)]
    cases m2[off + k]? with
    | none => rfl
    | some b =>
      rw [Option.some_bind, Option.some_bind]
      exact ih _ (by omega) (fun i hi => hagree i (by omega))

theorem rawValue_congr {F : Type} (m1 m2 : List Byte) (rec : ReportTranslateRecord F)
    (hshape : 1 ≤ rec.byteSize ∨ 0 ≤ rec.minValue)
    (hend : rec.byteOffset + rec.byteSize ≤ 2 ^ 64)
    (hagree : ∀ i, i < rec.byteSize → m1[rec.byteOffset + i]? = m2[rec.byteOffset + i]?) :
    rawValue m1 rec = rawValue m2 rec := by
  have hc := loopCount_le rec.byteSize
  have hsign : signFill m1 rec = signFill m2 rec := by
    by_cases hmin : rec.minValue < 0
    · have h1 : 1 ≤ rec.byteSize := by omega
      unfold signFill
      rw [if_pos hmin, if_pos hmin, signIndex_eq _ _ (by omega) hend,
        show rec.byteOffset + rec.byteSize - 1 = rec.byteOffset + (rec.byteSize - 1) by omega,
        hagree _ (by omega)]
    · rw [signFill_nonneg m1 rec (by omega), signFill_nonneg m2 rec (by omega)]
  unfold rawValue
  rw [hsign]
  cases signFill m2 rec with
  | none => rfl
  | some v0 =>
    rw [Option.some_bind, Option.some_bind,
      shiftInLoop_congr m1 m2 _ _ v0 (by omega) (fun i hi => hagree i (by omega))]

/-! ## The indices read -/

theorem mem_loopIndices (off : Nat) :
    ∀ (n idx : Nat), idx ∈ loopIndices off n → ∃ i, i < n ∧ idx = sizeAdd off i := by
  intro n
  induction n with
  | zero => intro idx h; simp [loopIndices] at h
  | succ k ih =>
    intro idx h
    rw [loopIndices, List.mem_cons] at h
    rcases h with h | h
    · exact ⟨k, by omega, h⟩
    · obtain ⟨i, hi, hidx⟩ := ih idx h
      exact ⟨i, by omega, hidx⟩

theorem accessedIndices_lt {F : Type} (message : List Byte) (rec : ReportTranslateRecord F)
    (hlen : rec.byteOffset + rec.byteSize ≤ message.length) (hsize : message.length < 2 ^ 64)
    (hok : 0 ≤ rec.minValue ∨ 1 ≤ rec.byteOffset + rec.byteSize) :
    ∀ idx ∈ accessedIndices rec, idx < message.length := by
  intro idx h
  have hc := loopCount_le rec.byteSize
  unfold accessedIndices at h
  rw [List.mem_append] at h
  rcases h with h | h
  · by_cases hmin : rec.minValue < 0
    · rw [if_pos hmin, List.mem_singleton] at h
      rw [h, signIndex_eq _ _ (by omega) (by omega)]
      omega
    · rw [if_neg hmin] at h
      simp at h
  · obtain ⟨i, hi, hidx⟩ := mem_loopIndices _ _ _ h
    have hmod : sizeAdd rec.byteOffset i = rec.byteOffset + i := Nat.mod_eq_of_lt (by omega)
    omega

theorem shiftInLoop_congr_on (m1 m2 : List Byte) (off : Nat) :
    ∀ (n v : Nat), (∀ idx ∈ loopIndices off n, m1[idx]? = m2[idx]?) →
      shiftInLoop m1 off n v = shiftInLoop m2 off n v := by
  intro n
  induction n with
  | zero => intro v _; rfl
  | succ k ih =>
    intro v hagree
    rw [shiftInLoop, shiftInLoop, hagree _ (by rw [loopIndices]; exact List.mem_cons_self _ _)]
    cases m2[sizeAdd off k]? with
    | none => rfl
    | some b =>
      rw [Option.some_bind, Option.some_bind]
      exact ih _ (fun idx hidx =>
        hagree idx (by rw [loopIndices]; exact List.mem_cons_of_mem _ hidx))

theorem rawValue_congr_on {F : Type} (m1 m2 : List Byte) (rec : ReportTranslateRecord F)
    (hagree : ∀ idx ∈ accessedIndices rec, m1[idx]? = m2[idx]?) :
    rawValue m1 rec = rawValue m2 rec := by
  have hsign : signFill m1 rec = signFill m2 rec := by
    by_cases hmin : rec.minValue < 0
    · unfold signFill
      rw [if_pos hmin, if_pos hmin, hagree _ (by
        unfold accessedIndices
        rw [if_pos hmin]
        exact List.mem_append_left _ (List.mem_singleton_self _))]
    · rw [signFill_nonneg m1 rec (by omega), signFill_nonneg m2 rec (by omega)]
  unfold rawValue
  rw [hsign]
  cases signFill m2 rec with
  | none => rfl
  | some v0 =>
    rw [Option.some_bind, Option.some_bind,
      shiftInLoop_congr_on m1 m2 _ _ v0 (fun idx hidx =>
        hagree idx (by unfold accessedIndices; exact List.mem_append_right _ hidx))]

/-! ## Exactness of IEEE 754 arithmetic on small integers -/

theorem roundHalfEven_intCast (n : Int) : roundHalfEven (n : ℚ) = n := by
  unfold roundHalfEven
  rw [Int.floor_intCast, sub_self, if_pos (by norm_num)]

theorem roundToFormat_intCast (p : Nat) (emin emax : Int) (n : Int)
    (hemin : emin ≤ 0) (hemax : (p : Int) ≤ emax + 1) (hn : |n| < 2 ^ p) :
    roundToFormat p emin emax (n : ℚ) = Fp.finite n := by
  unfold roundToFormat
  by_cases h0 : n = 0
  · subst h0; simp
  · have hq0 : (n : ℚ) ≠ 0 := by exact_mod_cast h0
    rw [if_neg hq0]
    have habs1 : (1 : ℚ) ≤ |(n : ℚ)| := by
      have : (1 : Int) ≤ |n| := Int.one_le_abs h0
      exact_mod_cast this
    have hlog0 : 0 ≤ Int.log 2 |(n : ℚ)| := by
      rw [Int.log_of_one_le_right 2 habs1]; exact Int.natCast_nonneg _
    have hlogp : Int.log 2 |(n : ℚ)| < p := by
      have h1 := Int.zpow_log_le_self (b := 2) (r := |(n : ℚ)|) (by norm_num) (by linarith)
      have h2 : |(n : ℚ)| < (2 : ℚ) ^ (p : Int) := by
        rw [zpow_natCast]; exact_mod_cast hn
      have h3 : ((2 : ℕ) : ℚ) ^ Int.log 2 |(n : ℚ)| < ((2 : ℕ) : ℚ) ^ (p : Int) := by
        push_cast; push_cast at h1; linarith
      exact (zpow_lt_zpow_iff_right₀ (by norm_num)).1 h3
    obtain ⟨k, hk⟩ : ∃ k : Nat, (k : Int) = (p : Int) - 1 - Int.log 2 |(n : ℚ)| :=
      ⟨((p : Int) - 1 - Int.log 2 |(n : ℚ)|).toNat, by omega⟩
    have hexp : max (Int.log 2 |(n : ℚ)|) emin - ((p : Int) - 1) = -(k : Int) := by
      rw [max_eq_left (by omega)]; omega
    have hulp : (2 : ℚ) ^ (-(k : Int)) = ((2 : ℚ) ^ k)⁻¹ := by
      rw [zpow_neg, zpow_natCast]
    have hpos : (0 : ℚ) < 2 ^ k := by positivity
    have hdiv : (n : ℚ) / ((2 : ℚ) ^ k)⁻¹ = ((n * 2 ^ k : Int) : ℚ) := by
      push_cast; field_simp
    simp only [hexp, hulp, hdiv, roundHalfEven_intCast]
    have hr : ((n * 2 ^ k : Int) : ℚ) * ((2 : ℚ) ^ k)⁻¹ = n := by
      push_cast; field_simp
    rw [hr, if_neg]
    have h2 : |(n : ℚ)| < (2 : ℚ) ^ (p : Int) := by
      rw [zpow_natCast]; exact_mod_cast hn
    have h3 : (2 : ℚ) ^ (p : Int) ≤ 2 ^ (emax + 1) :=
      (zpow_le_zpow_iff_right₀ (by norm_num)).2 hemax
    linarith

theorem roundDouble_intCast (n : Int) (hn : |n| < 2 ^ 53) :
    roundDouble (n : ℚ) = Fp.finite n :=
  roundToFormat_intCast 53 (-1022) 1023 n (by norm_num) (by norm_num) hn

theorem roundFloat_intCast (n : Int) (hn : |n| < 2 ^ 24) :
    roundFloat (n : ℚ) = Fp.finite n :=
  roundToFormat_intCast 24 (-126) 127 n (by norm_num) (by norm_num) hn

/-! ## Byte strings inside a message -/

theorem accumulateLsbFirst_head (message : List Byte) (off n : Nat) :
    accumulateLsbFirst message off (n + 1)
      = (message.getD off 0).val + 256 * accumulateLsbFirst message (off + 1) n := by
  induction n with
  | zero => simp [accumulateLsbFirst]
  | succ k ih =>
    rw [accumulateLsbFirst, ih, accumulateLsbFirst, show off + 1 + k = off + (k + 1) by omega]
    ring

theorem accumulateLsbFirst_append (bs : List Byte) :
    ∀ (pre post : List Byte),
      accumulateLsbFirst (pre ++ bs ++ post) pre.length bs.length = leValue bs := by
  induction bs with
  | nil => intro pre post; rfl
  | cons b t ih =>
    intro pre post
    rw [List.length_cons, accumulateLsbFirst_head, leValue]
    have h1 : (pre ++ b :: t ++ post).getD pre.length 0 = b := by
      rw [List.append_assoc, List.getD_append_right _ _ _ _ (le_refl _), Nat.sub_self]
      rfl
    have h2 : pre ++ b :: t ++ post = (pre ++ [b]) ++ t ++ post := by simp
    have h3 : pre.length + 1 = (pre ++ [b]).length := by simp
    rw [h1, h2, h3, ih]

theorem leValue_lt (bs : List Byte) : leValue bs < 256 ^ bs.length := by
  induction bs with
  | nil => simp [leValue]
  | cons b t ih =>
    have hb : b.val < 256 := b.isLt
    rw [leValue, List.length_cons, pow_succ]
    omega

theorem leValue_injective (bs1 : List Byte) :
    ∀ bs2 : List Byte, bs1.length = bs2.length → leValue bs1 = leValue bs2 → bs1 = bs2 := by
  induction bs1 with
  | nil =>
    intro bs2 hl _
    cases bs2 with
    | nil => rfl
    | cons c u => simp at hl
  | cons b t ih =>
    intro bs2 hl hv
    cases bs2 with
    | nil => simp at hl
    | cons c u =>
      have hb : b.val < 256 := b.isLt
      have hc : c.val < 256 := c.isLt
      simp only [leValue] at hv
      simp only [List.length_cons, Nat.add_right_cancel_iff] at hl
      have hbc : b = c := Fin.ext (by omega)
      have htu : t = u := ih u hl (by omega)
      rw [hbc, htu]

theorem encodeLE_length (n : Nat) : ∀ x : Int, (encodeLE n x).length = n := by
  induction n with
  | zero => intro x; rfl
  | succ k ih => intro x; rw [encodeLE, List.length_cons, ih]

theorem leValue_encodeLE (n : Nat) :
    ∀ x : Int, ((256 : Int) ^ n) ∣ ((leValue (encodeLE n x) : Int) - x) := by
  induction n with
  | zero => intro x; simp
  | succ k ih =>
    intro x
    obtain ⟨q, hq⟩ := ih (x / 256)
    have hb : ((Fin.ofNat (x % 256).toNat : Byte).val : Int) = x % 256 := by
      simp only [Fin.ofNat]
      omega
    refine ⟨q, ?_⟩
    rw [encodeLE, leValue]
    push_cast
    rw [hb, pow_succ]
    have hx := Int.emod_add_ediv x 256
    linear_combination 256 * hq + hx

theorem two_pow_eq (n : Nat) (h1 : 1 ≤ n) : (2 : Int) ^ (8 * n - 1) = 128 * 256 ^ (n - 1) := by
  obtain ⟨k, rfl⟩ : ∃ k, n = k + 1 := ⟨n - 1, by omega⟩
  rw [show 8 * (k + 1) - 1 = 7 + 8 * k by omega, Nat.add_sub_cancel, pow_add, pow_mul]
  norm_num

/-- The raw value of a signed field of `1 ≤ n ≤ 8` bytes `bs` placed between
`pre` and `post`. -/
theorem rawValue_field {F : Type} (pre bs post : List Byte) (rec : ReportTranslateRecord F)
    (hoff : rec.byteOffset = pre.length) (hbs : rec.byteSize = bs.length)
    (hmin : rec.minValue < 0) (h1 : 1 ≤ bs.length) (h8 : bs.length ≤ 8)
    (hsize : (pre ++ bs ++ post).length < 2 ^ 64) :
    rawValue (pre ++ bs ++ post) rec
      = some ((leValue bs : Int)
          - (if 128 * 256 ^ (bs.length - 1) ≤ leValue bs then 256 ^ bs.length else 0)) := by
  have hlen : rec.byteOffset + rec.byteSize ≤ (pre ++ bs ++ post).length := by
    rw [hoff, hbs]; simp
  have htop := accumulateLsbFirst_top (pre ++ bs ++ post) rec.byteOffset rec.byteSize (by omega)
  rw [rawValue_signed _ rec hmin (by omega) (by omega) hlen hsize]
  rw [hoff, hbs] at htop ⊢
  rw [accumulateLsbFirst_append] at htop ⊢
  congr 2
  by_cases h : 128 ≤ ((pre ++ bs ++ post).getD (pre.length + bs.length - 1) 0).val
  · rw [if_pos h, if_pos (htop.1 h)]
  · rw [if_neg h, if_neg (fun hc => h (htop.2 hc))]

theorem decoded_range (n S : Nat) (h1 : 1 ≤ n) (hS : S < 256 ^ n) :
    -(128 * 256 ^ (n - 1)) ≤
        (S : Int) - (if 128 * 256 ^ (n - 1) ≤ S then 256 ^ n else 0)
    ∧ (S : Int) - (if 128 * 256 ^ (n - 1) ≤ S then 256 ^ n else 0) < 128 * 256 ^ (n - 1)
    ∧ ((256 : Int) ^ n) ∣
        ((S : Int) - (if 128 * 256 ^ (n - 1) ≤ S then 256 ^ n else 0)) - S := by
  obtain ⟨k, rfl⟩ : ∃ k, n = k + 1 := ⟨n - 1, by omega⟩
  simp only [Nat.add_sub_cancel]
  rw [pow_succ] at hS
  have hcast : ((256 : Int) ^ k) = ((256 ^ k : Nat) : Int) := by push_cast; rfl
  rw [pow_succ, hcast]
  generalize 256 ^ k = Q at *
  by_cases h : 128 * Q ≤ S
  · rw [if_pos h]
    refine ⟨by omega, by omega, ⟨-1, by ring⟩⟩
  · rw [if_neg h]
    refine ⟨by omega, by omega, ⟨0, by ring⟩⟩

theorem writeField_length (message : List Byte) (off : Nat) (bs : List Byte)
    (hlen : off + bs.length ≤ message.length) :
    (writeField message off bs).length = message.length := by
  simp only [writeField, List.length_append, List.length_take, List.length_drop]
  omega

/-- The outcome of decoding a signed `TYPE_INT64` field of `n` bytes with the
full `n`-byte range and `b = 0`, after the bytes `bs` were written at the
offset of the field. -/
theorem decode_written {F V : Type} (ops : ValueOps F V) (message bs : List Byte)
    (off : Nat) (index : Int) (a : F) (value : V)
    (h1 : 1 ≤ bs.length) (h8 : bs.length ≤ 8)
    (hlen : off + bs.length ≤ message.length) (hsize : message.length < 2 ^ 64) :
    getReportFieldValue ops (writeField message off bs)
        { type := TYPE_INT64, index := index, maxValue := 2 ^ (8 * bs.length - 1) - 1,
          minValue := -2 ^ (8 * bs.length - 1), byteOffset := off, byteSize := bs.length,
          a := a, b := 0 } value
      = some (true, ops.assignInt64
          ((leValue bs : Int)
            - (if 128 * 256 ^ (bs.length - 1) ≤ leValue bs then 256 ^ bs.length else 0))) := by
  have hpos : (0 : Int) < 256 ^ (bs.length - 1) := by positivity
  have hq7 : (256 : Int) ^ (bs.length - 1) ≤ 256 ^ 7 :=
    pow_le_pow_right₀ (by norm_num) (by omega)
  have hraw := rawValue_field (message.take off) bs (message.drop (off + bs.length))
    ({ type := TYPE_INT64, index := index, maxValue := 2 ^ (8 * bs.length - 1) - 1,
       minValue := -2 ^ (8 * bs.length - 1), byteOffset := off, byteSize := bs.length,
       a := a, b := 0 } : ReportTranslateRecord F)
    (by simp only [List.length_take]; omega) rfl
    (by simp only [two_pow_eq _ h1]; omega) h1 h8
    (by
      have := writeField_length message off bs hlen
      unfold writeField at this
      omega)
  obtain ⟨hlo, hhi, -⟩ := decoded_range bs.length (leValue bs) h1 (leValue_lt bs)
  unfold writeField
  rw [getReportFieldValue_of_raw ops _ _ value _ hraw]
  simp only [if_pos, if_neg (show TYPE_INT64 ≠ TYPE_FLOAT by decide), add_zero]
  rw [wrapInt64_of_range _ (by norm_num at hq7; omega) (by norm_num at hq7; omega)]
  congr 2
  rw [decide_eq_true_eq, two_pow_eq _ h1]
  omega

/-! ## Signed fields -/

/-- C1: for a record with `minValue < 0` and `1 ≤ byteSize ≤ 8` and a message
holding at least `byteOffset + byteSize` bytes, the raw integer reconstructed by
`getReportFieldValue` is the little-endian sum of `message[byteOffset + i] * 256 ^ i`
minus `256 ^ byteSize` when bit 7 of `message[byteOffset + byteSize - 1]` is set,
and the returned flag is the range check of that integer. A 2-byte field with
bounds -32768 and 32767 and bytes `[0xFF, 0xFF]` reconstructs to -1 and is
reported valid. -/
theorem getReportFieldValue_signed_twos_complement {F V : Type} (ops : ValueOps F V)
    (message : List Byte) (rec : ReportTranslateRecord F) (value : V)
    (hmin : rec.minValue < 0) (h1 : 1 ≤ rec.byteSize) (h8 : rec.byteSize ≤ 8)
    (hlen : rec.byteOffset + rec.byteSize ≤ message.length)
    (hsize : message.length < 2 ^ 64) :
    (∃ v : Int,
      v = ((∑ i in Finset.range rec.byteSize,
              (message.getD (rec.byteOffset + i) 0).val * 256 ^ i : Nat) : Int)
            - (if (message.getD (rec.byteOffset + rec.byteSize - 1) 0).val.testBit 7
                then 256 ^ rec.byteSize else 0)
      ∧ rawValue message rec = some v
      ∧ (getReportFieldValue ops message rec value).map Prod.fst
          = some (decide (rec.minValue ≤ v ∧ v ≤ rec.maxValue)))
    ∧ rawValue [0xFF, 0xFF]
        ({ type := TYPE_INT64, index := 0, maxValue := 32767, minValue := -32768,
           byteOffset := 0, byteSize := 2, a := 1, b := 0 } : ReportTranslateRecord ℚ)
        = some (-1)
    ∧ getReportFieldValue exactInt64 [0xFF, 0xFF]
        { type := TYPE_INT64, index := 0, maxValue := 32767, minValue := -32768,
          byteOffset := 0, byteSize := 2, a := 1, b := 0 } 0
        = some (true, -1) := by
  refine ⟨⟨_, rfl, ?_, ?_⟩, by decide, by decide⟩
  · rw [rawValue_signed message rec hmin h1 h8 hlen hsize, accumulateLsbFirst_eq_sum]
    congr 2
    by_cases h : 128 ≤ (message.getD (rec.byteOffset + rec.byteSize - 1) 0).val
    · rw [if_pos h, if_pos ((testBit_seven_iff _).2 h)]
    · rw [if_neg h, if_neg (fun hc => h ((testBit_seven_iff _).1 hc))]
  · have hraw := rawValue_signed message rec hmin h1 h8 hlen hsize
    rw [accumulateLsbFirst_eq_sum] at hraw
    have htb : (if (message.getD (rec.byteOffset + rec.byteSize - 1) 0).val.testBit 7
          then (256 : Int) ^ rec.byteSize else 0)
        = (if 128 ≤ (message.getD (rec.byteOffset + rec.byteSize - 1) 0).val
          then (256 : Int) ^ rec.byteSize else 0) := by
      by_cases h : 128 ≤ (message.getD (rec.byteOffset + rec.byteSize - 1) 0).val
      · rw [if_pos h, if_pos ((testBit_seven_iff _).2 h)]
      · rw [if_neg h, if_neg (fun hc => h ((testBit_seven_iff _).1 hc))]
    rw [htb, getReportFieldValue_of_raw ops message rec value _ hraw, Option.map_some']

/-- Instance of C1 at a 3-byte field at offset 1 whose top byte has bit 7 set. -/
theorem getReportFieldValue_signed_twos_complement_witness :
    ∃ v : Int,
      v = ((∑ i in Finset.range 3,
              (([0x00, 0x01, 0x02, 0x83] : List Byte).getD (1 + i) 0).val * 256 ^ i : Nat) : Int)
            - (if (([0x00, 0x01, 0x02, 0x83] : List Byte).getD (1 + 3 - 1) 0).val.testBit 7
                then 256 ^ 3 else 0)
      ∧ rawValue [0x00, 0x01, 0x02, 0x83]
          ({ type := TYPE_INT64, index := 0, maxValue := 0, minValue := -8388608,
             byteOffset := 1, byteSize := 3, a := 1, b := 0 } : ReportTranslateRecord ℚ)
          = some v
      ∧ (getReportFieldValue exactInt64 [0x00, 0x01, 0x02, 0x83]
          { type := TYPE_INT64, index := 0, maxValue := 0, minValue := -8388608,
            byteOffset := 1, byteSize := 3, a := 1, b := 0 } 0).map Prod.fst
          = some (decide ((-8388608 : Int) ≤ v ∧ v ≤ 0)) :=
  (getReportFieldValue_signed_twos_complement exactInt64 [0x00, 0x01, 0x02, 0x83]
    { type := TYPE_INT64, index := 0, maxValue := 0, minValue := -8388608,
      byteOffset := 1, byteSize := 3, a := 1, b := 0 } 0
    (by decide) (by decide) (by decide) (by decide) (by decide)).1

/-! ## Unsigned fields -/

/-- C6: for a record with `minValue ≥ 0` and `byteSize ≤ 7` and a message holding
at least `byteOffset + byteSize` bytes, the raw integer reconstructed by
`getReportFieldValue` is the sum over `i < byteSize` of
`message[byteOffset + i] * 256 ^ i`, with no sign extension; it lies in
`[0, 256 ^ byteSize)`; and the loop of the code, which shifts bytes in from the
most significant one down, produces the same number as accumulating the bytes
least-significant-first. -/
theorem getReportFieldValue_unsigned_little_endian {F : Type}
    (message : List Byte) (rec : ReportTranslateRecord F)
    (hmin : 0 ≤ rec.minValue) (h7 : rec.byteSize ≤ 7)
    (hlen : rec.byteOffset + rec.byteSize ≤ message.length)
    (hsize : message.length < 2 ^ 64) :
    ∃ v : Nat,
      v = ∑ i in Finset.range rec.byteSize,
            (message.getD (rec.byteOffset + i) 0).val * 256 ^ i
      ∧ rawValue message rec = some (v : Int)
      ∧ v < 256 ^ rec.byteSize
      ∧ shiftInLoop message rec.byteOffset (loopCount rec.byteSize) 0 = some v
      ∧ v = accumulateLsbFirst message rec.byteOffset rec.byteSize := by
  refine ⟨_, rfl, ?_, ?_, ?_, ?_⟩
  · rw [← accumulateLsbFirst_eq_sum]
    exact rawValue_unsigned message rec hmin h7 hlen hsize
  · rw [← accumulateLsbFirst_eq_sum]
    exact accumulateLsbFirst_lt _ _ _
  · rw [← accumulateLsbFirst_eq_sum, loopCount_small _ (by omega),
      shiftInLoop_eq message _ (by omega) _ _ (by norm_num) hlen, Nat.zero_mul, Nat.zero_add]
    have hS := accumulateLsbFirst_lt message rec.byteOffset rec.byteSize
    have hq7 : 256 ^ rec.byteSize ≤ 2 ^ 56 :=
      le_trans (Nat.pow_le_pow_right (by norm_num) h7) (by norm_num)
    rw [Nat.mod_eq_of_lt (by omega)]
  · exact (accumulateLsbFirst_eq_sum _ _ _).symm

/-- Instance of C6 at a 2-byte field whose top byte has bit 7 set. -/
theorem getReportFieldValue_unsigned_little_endian_witness :
    ∃ v : Nat,
      v = ∑ i in Finset.range 2, (([0x34, 0xF2] : List Byte).getD (0 + i) 0).val * 256 ^ i
      ∧ rawValue [0x34, 0xF2]
          ({ type := TYPE_FLOAT, index := 0, maxValue := 65535, minValue := 0,
             byteOffset := 0, byteSize := 2, a := 1, b := 0 } : ReportTranslateRecord ℚ)
          = some (v : Int)
      ∧ v < 256 ^ 2
      ∧ shiftInLoop [0x34, 0xF2] 0 (loopCount 2) 0 = some v
      ∧ v = accumulateLsbFirst [0x34, 0xF2] 0 2 :=
  getReportFieldValue_unsigned_little_endian [0x34, 0xF2]
    { type := TYPE_FLOAT, index := 0, maxValue := 65535, minValue := 0,
      byteOffset := 0, byteSize := 2, a := 1, b := 0 }
    (by decide) (by decide) (by decide) (by decide)

/-! ## Messages shorter than the field -/

/-- Counterexample to C2 as stated: with an empty message and a 1-byte field at
offset 0 the call indexes the message at position 0, beyond its length
(undefined behaviour, `none` in the embedding); with an empty message and a
zero-width field at offset 1 (unsigned range containing 0) the call reads
nothing and returns `true`. -/
theorem getReportFieldValue_short_message_counterexample :
    (([] : List Byte).length < 0 + 1
      ∧ getReportFieldValue exactInt64 []
          { type := TYPE_INT64, index := 0, maxValue := 255, minValue := 0,
            byteOffset := 0, byteSize := 1, a := 1, b := 0 } 0 = none)
    ∧ (([] : List Byte).length < 1 + 0
      ∧ getReportFieldValue exactInt64 []
          { type := TYPE_INT64, index := 0, maxValue := 255, minValue := 0,
            byteOffset := 1, byteSize := 0, a := 1, b := 0 } 0 = some (true, 0)) := by
  decide

/-- C2, amended: `getReportFieldValue` contains no length check, so nothing is
promised for a message shorter than `byteOffset + byteSize` (rejecting it is left
to the caller). For every record with `minValue ≥ 0` or
`byteOffset + byteSize ≥ 1` and every message holding at least
`byteOffset + byteSize` bytes, every index the call accesses is below the
message's actual length and the call returns its flag and value; and the
indices listed are all it reads, since any message with the same bytes at these
indices gives the same outcome. -/
theorem getReportFieldValue_length_contract {F V : Type} (ops : ValueOps F V)
    (message : List Byte) (rec : ReportTranslateRecord F) (value : V)
    (hlen : rec.byteOffset + rec.byteSize ≤ message.length)
    (hsize : message.length < 2 ^ 64)
    (hok : 0 ≤ rec.minValue ∨ 1 ≤ rec.byteOffset + rec.byteSize) :
    (∀ idx ∈ accessedIndices rec, idx < message.length)
    ∧ (∃ r, getReportFieldValue ops message rec value = some r)
    ∧ ∀ other : List Byte, (∀ idx ∈ accessedIndices rec, other[idx]? = message[idx]?) →
        getReportFieldValue ops other rec value = getReportFieldValue ops message rec value := by
  refine ⟨accessedIndices_lt message rec hlen hsize hok, ?_, ?_⟩
  · exact ⟨_, getReportFieldValue_of_raw ops message rec value _
      (rawValue_eq message rec hlen hsize hok)⟩
  · intro other hagree
    unfold getReportFieldValue
    rw [rawValue_congr_on other message rec hagree]

/-- Instance of the amended C2: a signed 2-byte field at offset 1 of a 3-byte
message. -/
theorem getReportFieldValue_length_contract_witness :
    (∀ idx ∈ accessedIndices
        ({ type := TYPE_INT64, index := 0, maxValue := 32767, minValue := -32768,
           byteOffset := 1, byteSize := 2, a := 1, b := 0 } : ReportTranslateRecord ℚ),
      idx < ([0x01, 0x02, 0x83] : List Byte).length)
    ∧ (∃ r, getReportFieldValue exactInt64 [0x01, 0x02, 0x83]
        { type := TYPE_INT64, index := 0, maxValue := 32767, minValue := -32768,
          byteOffset := 1, byteSize := 2, a := 1, b := 0 } 0 = some r)
    ∧ ∀ other : List Byte,
        (∀ idx ∈ accessedIndices
            ({ type := TYPE_INT64, index := 0, maxValue := 32767, minValue := -32768,
               byteOffset := 1, byteSize := 2, a := 1, b := 0 } : ReportTranslateRecord ℚ),
          other[idx]? = ([0x01, 0x02, 0x83] : List Byte)[idx]?) →
        getReportFieldValue exactInt64 other
            { type := TYPE_INT64, index := 0, maxValue := 32767, minValue := -32768,
              byteOffset := 1, byteSize := 2, a := 1, b := 0 } 0
          = getReportFieldValue exactInt64 [0x01, 0x02, 0x83]
            { type := TYPE_INT64, index := 0, maxValue := 32767, minValue := -32768,
              byteOffset := 1, byteSize := 2, a := 1, b := 0 } 0 :=
  getReportFieldValue_length_contract exactInt64 [0x01, 0x02, 0x83]
    { type := TYPE_INT64, index := 0, maxValue := 32767, minValue := -32768,
      byteOffset := 1, byteSize := 2, a := 1, b := 0 } 0
    (by decide) (by decide) (by decide)

/-! ## Dependence on the bytes of the field only -/

/-- Counterexample to C3 as stated: for a zero-width field at offset 1 with
`minValue < 0` the messages `[0x80]` and `[0x00]` agree on every position of the
(empty) field, yet the call returns `(true, -1)` for one and `(false, 0)` for the
other, because the sign is taken from `message[byteOffset - 1]`. -/
theorem getReportFieldValue_reads_only_field_counterexample :
    (∀ i, i < 0 → ([0x80] : List Byte)[1 + i]? = ([0x00] : List Byte)[1 + i]?)
    ∧ getReportFieldValue exactInt64 [0x80]
        { type := TYPE_INT64, index := 0, maxValue := -1, minValue := -1,
          byteOffset := 1, byteSize := 0, a := 1, b := 0 } 0 = some (true, -1)
    ∧ getReportFieldValue exactInt64 [0x00]
        { type := TYPE_INT64, index := 0, maxValue := -1, minValue := -1,
          byteOffset := 1, byteSize := 0, a := 1, b := 0 } 0 = some (false, 0) := by
  refine ⟨fun i hi => absurd hi (Nat.not_lt_zero i), by decide, by decide⟩

/-- C3, amended: for every record with `byteSize ≥ 1`, or with `byteSize = 0` and
`minValue ≥ 0`, whose field ends at or before `2 ^ 64`, and every two messages
that agree on every position `byteOffset .. byteOffset + byteSize - 1`, the call
gives the same outcome for both messages: the same flag and the same output
value, or no result for either. -/
theorem getReportFieldValue_reads_only_field {F V : Type} (ops : ValueOps F V)
    (m1 m2 : List Byte) (rec : ReportTranslateRecord F) (value : V)
    (hshape : 1 ≤ rec.byteSize ∨ 0 ≤ rec.minValue)
    (hend : rec.byteOffset + rec.byteSize ≤ 2 ^ 64)
    (hagree : ∀ i, i < rec.byteSize → m1[rec.byteOffset + i]? = m2[rec.byteOffset + i]?) :
    getReportFieldValue ops m1 rec value = getReportFieldValue ops m2 rec value := by
  unfold getReportFieldValue
  rw [rawValue_congr m1 m2 rec hshape hend hagree]

/-- Instance of the amended C3: two messages that differ only outside a signed
2-byte field at offset 1. -/
theorem getReportFieldValue_reads_only_field_witness :
    getReportFieldValue exactInt64 [0x11, 0xFE, 0xFF, 0x22]
        { type := TYPE_INT64, index := 0, maxValue := 32767, minValue := -32768,
          byteOffset := 1, byteSize := 2, a := 1, b := 0 } 0
      = getReportFieldValue exactInt64 [0x80, 0xFE, 0xFF]
        { type := TYPE_INT64, index := 0, maxValue := 32767, minValue := -32768,
          byteOffset := 1, byteSize := 2, a := 1, b := 0 } 0 :=
  getReportFieldValue_reads_only_field exactInt64 [0x11, 0xFE, 0xFF, 0x22] [0x80, 0xFE, 0xFF]
    { type := TYPE_INT64, index := 0, maxValue := 32767, minValue := -32768,
      byteOffset := 1, byteSize := 2, a := 1, b := 0 } 0
    (by decide) (by decide) (by decide)

/-! ## The returned flag -/

/-- Counterexample to C4 as stated: for the zero-width field at offset 0 with
`minValue < 0` the sign is read from `message[0 + 0 - 1]`, an index that no
message holds, so no raw integer is reconstructed and no flag is returned,
although the message holds at least `byteOffset + byteSize = 0` bytes. -/
theorem getReportFieldValue_flag_counterexample :
    0 + 0 ≤ ([0x01, 0x02] : List Byte).length
    ∧ rawValue [0x01, 0x02]
        ({ type := TYPE_FLOAT, index := 0, maxValue := 1, minValue := -1,
           byteOffset := 0, byteSize := 0, a := 1, b := 0 } : ReportTranslateRecord ℚ) = none
    ∧ getReportFieldValue exactDouble [0x01, 0x02]
        { type := TYPE_FLOAT, index := 0, maxValue := 1, minValue := -1,
          byteOffset := 0, byteSize := 0, a := 1, b := 0 } 0 = none := by
  decide

/-- C4, amended: for every record other than a zero-width field at offset 0
with `minValue < 0`, and every message holding at least `byteOffset + byteSize`
bytes, `getReportFieldValue` returns `true` if and only if the reconstructed raw
integer `v` satisfies `minValue ≤ v ≤ maxValue`, both bounds inclusive; the flag
is the same for every other record with the same bounds, offset and size,
whatever its `type`, `a` and `b` (and whatever the output type and the previous
output value). -/
theorem getReportFieldValue_flag {F V : Type} (ops : ValueOps F V)
    (message : List Byte) (rec : ReportTranslateRecord F) (value : V)
    (hlen : rec.byteOffset + rec.byteSize ≤ message.length)
    (hsize : message.length < 2 ^ 64)
    (hok : 0 ≤ rec.minValue ∨ 1 ≤ rec.byteOffset + rec.byteSize) :
    ∃ (v : Int) (flag : Bool) (out : V),
      rawValue message rec = some v
      ∧ getReportFieldValue ops message rec value = some (flag, out)
      ∧ (flag = true ↔ rec.minValue ≤ v ∧ v ≤ rec.maxValue)
      ∧ ∀ (F2 V2 : Type) (ops2 : ValueOps F2 V2) (type2 : Int) (a2 : F2) (b2 : Int)
          (value2 : V2),
          (getReportFieldValue ops2 message
            { type := type2, index := rec.index, maxValue := rec.maxValue,
              minValue := rec.minValue, byteOffset := rec.byteOffset,
              byteSize := rec.byteSize, a := a2, b := b2 } value2).map Prod.fst
            = some flag := by
  have hraw := rawValue_eq message rec hlen hsize hok
  refine ⟨_, _, _, hraw, getReportFieldValue_of_raw ops message rec value _ hraw, ?_, ?_⟩
  · simp
  · intro F2 V2 ops2 type2 a2 b2 value2
    have hraw2 := rawValue_eq message
      ({ type := type2, index := rec.index, maxValue := rec.maxValue,
         minValue := rec.minValue, byteOffset := rec.byteOffset,
         byteSize := rec.byteSize, a := a2, b := b2 } : ReportTranslateRecord F2)
      hlen hsize hok
    rw [getReportFieldValue_of_raw ops2 message _ value2 _ hraw2, Option.map_some']

/-- Instance of the amended C4: an unsigned 1-byte field equal to its upper bound. -/
theorem getReportFieldValue_flag_witness :
    ∃ (v : Int) (flag : Bool) (out : ℚ),
      rawValue [0x10, 0x64]
        ({ type := TYPE_FLOAT, index := 0, maxValue := 100, minValue := 0,
           byteOffset := 1, byteSize := 1, a := 1, b := 0 } : ReportTranslateRecord ℚ) = some v
      ∧ getReportFieldValue exactDouble [0x10, 0x64]
        { type := TYPE_FLOAT, index := 0, maxValue := 100, minValue := 0,
          byteOffset := 1, byteSize := 1, a := 1, b := 0 } 0 = some (flag, out)
      ∧ (flag = true ↔ (0 : Int) ≤ v ∧ v ≤ 100)
      ∧ ∀ (F2 V2 : Type) (ops2 : ValueOps F2 V2) (type2 : Int) (a2 : F2) (b2 : Int)
          (value2 : V2),
          (getReportFieldValue ops2 [0x10, 0x64]
            { type := type2, index := 0, maxValue := 100, minValue := 0, byteOffset := 1,
              byteSize := 1, a := a2, b := b2 } value2).map Prod.fst
            = some flag :=
  getReportFieldValue_flag exactDouble [0x10, 0x64]
    { type := TYPE_FLOAT, index := 0, maxValue := 100, minValue := 0,
      byteOffset := 1, byteSize := 1, a := 1, b := 0 } 0
    (by decide) (by decide) (by decide)

/-! ## The TYPE_INT64 transform -/

/-- Counterexample to C5 as stated: a `TYPE_INT64` record describing a
zero-width field at offset 0 with `minValue < 0` and an empty message, which
holds at least `byteOffset + byteSize = 0` bytes: the sign is read from
`message[0 + 0 - 1]`, beyond the message, and nothing is written. -/
theorem getReportFieldValue_int64_counterexample :
    0 + 0 ≤ ([] : List Byte).length
    ∧ getReportFieldValue exactInt64 []
        { type := TYPE_INT64, index := 0, maxValue := 10, minValue := -10,
          byteOffset := 0, byteSize := 0, a := 1, b := 3 } 0 = none := by
  decide

/-- C5, amended: for every `TYPE_INT64` record other than a zero-width field at
offset 0 with `minValue < 0`, and every message holding at least
`byteOffset + byteSize` bytes, `getReportFieldValue` writes `raw + b`, reduced
modulo `2 ^ 64` into the `int64_t` range, to the output, whatever the range
check says; for instance the raw value 5 with bounds `[0, 3]` and `b = 10` is
reported invalid and still written as 15. -/
theorem getReportFieldValue_int64_transform {F V : Type} (ops : ValueOps F V)
    (message : List Byte) (rec : ReportTranslateRecord F) (value : V)
    (htype : rec.type = TYPE_INT64)
    (hlen : rec.byteOffset + rec.byteSize ≤ message.length)
    (hsize : message.length < 2 ^ 64)
    (hok : 0 ≤ rec.minValue ∨ 1 ≤ rec.byteOffset + rec.byteSize) :
    (∃ v w : Int,
      rawValue message rec = some v
      ∧ getReportFieldValue ops message rec value
          = some (decide (rec.minValue ≤ v ∧ v ≤ rec.maxValue), ops.assignInt64 w)
      ∧ -2 ^ 63 ≤ w ∧ w < 2 ^ 63 ∧ (w - (v + rec.b)) % 2 ^ 64 = 0)
    ∧ getReportFieldValue exactInt64 [0x05]
        { type := TYPE_INT64, index := 0, maxValue := 3, minValue := 0,
          byteOffset := 0, byteSize := 1, a := 1, b := 10 } 0 = some (false, 15) := by
  obtain ⟨v, hraw⟩ := rawValue_defined message rec hlen hsize hok
  refine ⟨⟨v, wrapInt64 (v + rec.b), hraw, ?_, wrapInt64_spec _⟩, by decide⟩
  rw [getReportFieldValue_of_raw ops message rec value v hraw, htype,
    if_neg (show TYPE_INT64 ≠ TYPE_FLOAT by decide), if_pos rfl]

/-- Instance of the amended C5: the sum `raw + b` overflows `int64_t`. -/
theorem getReportFieldValue_int64_transform_witness :
    ∃ v w : Int,
      rawValue [0xFF, 0xFF, 0xFF, 0xFF, 0xFF, 0xFF, 0xFF, 0x7F]
        ({ type := TYPE_INT64, index := 0, maxValue := 100, minValue := -100,
           byteOffset := 0, byteSize := 8, a := 1, b := 1 } : ReportTranslateRecord ℚ) = some v
      ∧ getReportFieldValue exactInt64 [0xFF, 0xFF, 0xFF, 0xFF, 0xFF, 0xFF, 0xFF, 0x7F]
          { type := TYPE_INT64, index := 0, maxValue := 100, minValue := -100,
            byteOffset := 0, byteSize := 8, a := 1, b := 1 } 0
          = some (decide ((-100 : Int) ≤ v ∧ v ≤ 100), exactInt64.assignInt64 w)
      ∧ -2 ^ 63 ≤ w ∧ w < 2 ^ 63 ∧ (w - (v + 1)) % 2 ^ 64 = 0 :=
  (getReportFieldValue_int64_transform exactInt64
    [0xFF, 0xFF, 0xFF, 0xFF, 0xFF, 0xFF, 0xFF, 0x7F]
    { type := TYPE_INT64, index := 0, maxValue := 100, minValue := -100,
      byteOffset := 0, byteSize := 8, a := 1, b := 1 } 0
    rfl (by decide) (by decide) (by decide)).1

theorem float_two_byte {F V : Type} (ops : ValueOps F V)
    (message : List Byte) (rec : ReportTranslateRecord F) (value : V)
    (htype : rec.type = TYPE_FLOAT)
    (hlen : rec.byteOffset + rec.byteSize ≤ message.length)
    (hsize : message.length < 2 ^ 64)
    (hmin : rec.minValue = -32768) (hmax : rec.maxValue = 32767) (hbs : rec.byteSize = 2)
    (hb : rec.b = 0) :
    ∃ v : Int,
      v = ((message.getD rec.byteOffset 0).val : Int)
            + 256 * ((message.getD (rec.byteOffset + 1) 0).val : Int)
            - (if 128 ≤ (message.getD (rec.byteOffset + 1) 0).val then 65536 else 0)
      ∧ -32768 ≤ v ∧ v ≤ 32767
      ∧ rawValue message rec = some v
      ∧ getReportFieldValue ops message rec value
          = some (true, ops.assignDouble (ops.mul rec.a (ops.toDouble v))) := by
  have hraw := rawValue_signed message rec (by omega) (by omega) (by omega) hlen hsize
  have hlo : (message.getD rec.byteOffset 0).val < 256 := (message.getD rec.byteOffset 0).isLt
  have hhi : (message.getD (rec.byteOffset + 1) 0).val < 256 :=
    (message.getD (rec.byteOffset + 1) 0).isLt
  rw [hbs] at hraw
  simp only [accumulateLsbFirst, Nat.add_zero, pow_zero, Nat.mul_one, Nat.zero_add, pow_one,
    show rec.byteOffset + 2 - 1 = rec.byteOffset + 1 by omega] at hraw
  have hrange : -32768 ≤ ((message.getD rec.byteOffset 0).val : Int)
        + 256 * ((message.getD (rec.byteOffset + 1) 0).val : Int)
        - (if 128 ≤ (message.getD (rec.byteOffset + 1) 0).val then 65536 else 0)
      ∧ ((message.getD rec.byteOffset 0).val : Int)
        + 256 * ((message.getD (rec.byteOffset + 1) 0).val : Int)
        - (if 128 ≤ (message.getD (rec.byteOffset + 1) 0).val then 65536 else 0) ≤ 32767 := by
    constructor <;> split <;> omega
  have hraw2 : rawValue message rec
      = some (((message.getD rec.byteOffset 0).val : Int)
        + 256 * ((message.getD (rec.byteOffset + 1) 0).val : Int)
        - (if 128 ≤ (message.getD (rec.byteOffset + 1) 0).val then 65536 else 0)) := by
    rw [hraw]
    congr 1
    split <;> push_cast <;> omega
  refine ⟨_, rfl, hrange.1, hrange.2, hraw2, ?_⟩
  rw [getReportFieldValue_of_raw ops message rec value _ hraw2, htype, if_pos rfl, hmin, hmax,
    hb, add_zero, wrapInt64_of_range _ (by omega) (by omega)]
  congr 2
  rw [decide_eq_true_eq]
  exact hrange

theorem ieee_two_byte (message : List Byte) (rec : ReportTranslateRecord Fp) (value : Fp)
    (htype : rec.type = TYPE_FLOAT)
    (hlen : rec.byteOffset + rec.byteSize ≤ message.length)
    (hsize : message.length < 2 ^ 64)
    (hmin : rec.minValue = -32768) (hmax : rec.maxValue = 32767) (hbs : rec.byteSize = 2)
    (ha : rec.a = Fp.finite 1) (hb : rec.b = 0) :
    ∃ v : Int,
      v = ((message.getD rec.byteOffset 0).val : Int)
            + 256 * ((message.getD (rec.byteOffset + 1) 0).val : Int)
            - (if 128 ≤ (message.getD (rec.byteOffset + 1) 0).val then 65536 else 0)
      ∧ rawValue message rec = some v
      ∧ getReportFieldValue ieeeDouble message rec value = some (true, Fp.finite (v : ℚ))
      ∧ getReportFieldValue ieeeFloat message rec value = some (true, Fp.finite (v : ℚ)) := by
  obtain ⟨v, hv, hlo, hhi, hraw, hd⟩ :=
    float_two_byte ieeeDouble message rec value htype hlen hsize hmin hmax hbs hb
  obtain ⟨w, hw, -, -, -, hf⟩ :=
    float_two_byte ieeeFloat message rec value htype hlen hsize hmin hmax hbs hb
  have hwv : w = v := by rw [hw, hv]
  rw [hwv] at hf
  have habs53 : |v| < 2 ^ 53 := by rw [abs_lt]; constructor <;> omega
  have habs24 : |v| < 2 ^ 24 := by rw [abs_lt]; constructor <;> omega
  have hmul : mulDouble (Fp.finite 1) (roundDouble (v : ℚ)) = Fp.finite (v : ℚ) := by
    rw [roundDouble_intCast v habs53]
    show roundDouble (1 * (v : ℚ)) = Fp.finite (v : ℚ)
    rw [one_mul, roundDouble_intCast v habs53]
  refine ⟨v, hv, hraw, ?_, ?_⟩
  · rw [hd, ha]
    show some (true, mulDouble (Fp.finite 1) (roundDouble (v : ℚ))) = _
    rw [hmul]
  · rw [hf, ha]
    show some (true, narrowToFloat (mulDouble (Fp.finite 1) (roundDouble (v : ℚ)))) = _
    rw [hmul]
    show some (true, roundFloat (v : ℚ)) = _
    rw [roundFloat_intCast v habs24]

/-! ## The TYPE_FLOAT transform -/

/-- Counterexample to C7 as stated: a `TYPE_FLOAT` record describing a zero-width
field at offset 0 with `minValue < 0` and a 2-byte message, which holds at least
`byteOffset + byteSize = 0` bytes: the sign is read from `message[0 + 0 - 1]`,
beyond the message, and no physical value is written. -/
theorem getReportFieldValue_float_counterexample :
    0 + 0 ≤ ([0xFF, 0xFF] : List Byte).length
    ∧ getReportFieldValue exactDouble [0xFF, 0xFF]
        { type := TYPE_FLOAT, index := 0, maxValue := 32767, minValue := -32768,
          byteOffset := 0, byteSize := 0, a := 1, b := 0 } 0 = none := by
  decide

/-- C7, amended: for every `TYPE_FLOAT` record other than a zero-width field at
offset 0 with `minValue < 0`, and every message holding at least
`byteOffset + byteSize` bytes, `getReportFieldValue` writes `a * (raw + b)`, where
`raw + b` is formed in 64-bit integer arithmetic before the multiplication by
`a`. For a signed 2-byte field with `minValue = -32768`, `maxValue = 32767`,
`a = 1` and `b = 0`, every 2-byte input is reported valid and its physical value
equals its raw two's-complement integer exactly, in IEEE 754 arithmetic, both
when the output is a `double` and when it is a `float`; bytes `[0xFF, 0xFF]` give
the physical value -1. -/
theorem getReportFieldValue_float_transform {F V : Type} (ops : ValueOps F V)
    (message : List Byte) (rec : ReportTranslateRecord F) (value : V)
    (htype : rec.type = TYPE_FLOAT)
    (hlen : rec.byteOffset + rec.byteSize ≤ message.length)
    (hsize : message.length < 2 ^ 64)
    (hok : 0 ≤ rec.minValue ∨ 1 ≤ rec.byteOffset + rec.byteSize) :
    (∃ v : Int,
      rawValue message rec = some v
      ∧ getReportFieldValue ops message rec value
          = some (decide (rec.minValue ≤ v ∧ v ≤ rec.maxValue),
              ops.assignDouble (ops.mul rec.a (ops.toDouble (wrapInt64 (v + rec.b))))))
    ∧ (∀ (report : List Byte) (field : ReportTranslateRecord Fp) (previous : Fp),
        field.type = TYPE_FLOAT → field.minValue = -32768 → field.maxValue = 32767 →
        field.byteSize = 2 → field.a = Fp.finite 1 → field.b = 0 →
        field.byteOffset + 2 ≤ report.length → report.length < 2 ^ 64 →
        ∃ v : Int,
          v = ((report.getD field.byteOffset 0).val : Int)
                + 256 * ((report.getD (field.byteOffset + 1) 0).val : Int)
                - (if (report.getD (field.byteOffset + 1) 0).val.testBit 7 then 65536 else 0)
          ∧ rawValue report field = some v
          ∧ getReportFieldValue ieeeDouble report field previous
              = some (true, Fp.finite (v : ℚ))
          ∧ getReportFieldValue ieeeFloat report field previous
              = some (true, Fp.finite (v : ℚ)))
    ∧ getReportFieldValue ieeeDouble [0xFF, 0xFF]
        { type := TYPE_FLOAT, index := 0, maxValue := 32767, minValue := -32768,
          byteOffset := 0, byteSize := 2, a := Fp.finite 1, b := 0 } (Fp.finite 0)
        = some (true, Fp.finite (-1))
    ∧ getReportFieldValue ieeeFloat [0xFF, 0xFF]
        { type := TYPE_FLOAT, index := 0, maxValue := 32767, minValue := -32768,
          byteOffset := 0, byteSize := 2, a := Fp.finite 1, b := 0 } (Fp.finite 0)
        = some (true, Fp.finite (-1)) := by
  have hconcrete := ieee_two_byte [0xFF, 0xFF]
    { type := TYPE_FLOAT, index := 0, maxValue := 32767, minValue := -32768,
      byteOffset := 0, byteSize := 2, a := Fp.finite 1, b := 0 } (Fp.finite 0)
    rfl (by decide) (by decide) rfl rfl rfl rfl rfl
  obtain ⟨c, hc, -, hcd, hcf⟩ := hconcrete
  have hc1 : c = -1 := by rw [hc]; decide
  rw [hc1] at hcd hcf
  refine ⟨?_, ?_, by simpa using hcd, by simpa using hcf⟩
  · obtain ⟨v, hraw⟩ := rawValue_defined message rec hlen hsize hok
    refine ⟨v, hraw, ?_⟩
    rw [getReportFieldValue_of_raw ops message rec value v hraw, htype, if_pos rfl]
  · intro report field previous ftype fmin fmax fsize fa fb flen fbound
    obtain ⟨v, hv, hraw, hd, hf⟩ := ieee_two_byte report field previous ftype
      (by rw [fsize]; exact flen) fbound fmin fmax fsize fa fb
    refine ⟨v, ?_, hraw, hd, hf⟩
    rw [hv]
    congr 1
    by_cases h : 128 ≤ (report.getD (field.byteOffset + 1) 0).val
    · rw [if_pos h, if_pos ((testBit_seven_iff _).2 h)]
    · rw [if_neg h, if_neg (fun hc => h ((testBit_seven_iff _).1 hc))]

/-- Instance of the amended C7: a signed 2-byte field at offset 1 holding
`[0x00, 0x80]`, that is -32768. -/
theorem getReportFieldValue_float_transform_witness :
    (∃ v : Int,
      rawValue [0x00, 0x00, 0x80]
        ({ type := TYPE_FLOAT, index := 0, maxValue := 32767, minValue := -32768,
           byteOffset := 1, byteSize := 2, a := Fp.finite 1, b := 0 }
          : ReportTranslateRecord Fp) = some v
      ∧ getReportFieldValue ieeeDouble [0x00, 0x00, 0x80]
          { type := TYPE_FLOAT, index := 0, maxValue := 32767, minValue := -32768,
            byteOffset := 1, byteSize := 2, a := Fp.finite 1, b := 0 } (Fp.finite 0)
          = some (decide ((-32768 : Int) ≤ v ∧ v ≤ 32767),
              ieeeDouble.assignDouble
                (ieeeDouble.mul (Fp.finite 1) (ieeeDouble.toDouble (wrapInt64 (v + 0))))))
    ∧ ∃ v : Int,
        v = ((([0x00, 0x00, 0x80] : List Byte).getD 1 0).val : Int)
              + 256 * ((([0x00, 0x00, 0x80] : List Byte).getD (1 + 1) 0).val : Int)
              - (if (([0x00, 0x00, 0x80] : List Byte).getD (1 + 1) 0).val.testBit 7
                  then 65536 else 0)
        ∧ rawValue [0x00, 0x00, 0x80]
            ({ type := TYPE_FLOAT, index := 0, maxValue := 32767, minValue := -32768,
               byteOffset := 1, byteSize := 2, a := Fp.finite 1, b := 0 }
              : ReportTranslateRecord Fp) = some v
        ∧ getReportFieldValue ieeeDouble [0x00, 0x00, 0x80]
            { type := TYPE_FLOAT, index := 0, maxValue := 32767, minValue := -32768,
              byteOffset := 1, byteSize := 2, a := Fp.finite 1, b := 0 } (Fp.finite 0)
            = some (true, Fp.finite (v : ℚ))
        ∧ getReportFieldValue ieeeFloat [0x00, 0x00, 0x80]
            { type := TYPE_FLOAT, index := 0, maxValue := 32767, minValue := -32768,
              byteOffset := 1, byteSize := 2, a := Fp.finite 1, b := 0 } (Fp.finite 0)
            = some (true, Fp.finite (v : ℚ)) :=
  have h := getReportFieldValue_float_transform ieeeDouble [0x00, 0x00, 0x80]
    { type := TYPE_FLOAT, index := 0, maxValue := 32767, minValue := -32768,
      byteOffset := 1, byteSize := 2, a := Fp.finite 1, b := 0 } (Fp.finite 0)
    rfl (by decide) (by decide) (by decide)
  ⟨h.1, h.2.1 [0x00, 0x00, 0x80]
    { type := TYPE_FLOAT, index := 0, maxValue := 32767, minValue := -32768,
      byteOffset := 1, byteSize := 2, a := Fp.finite 1, b := 0 } (Fp.finite 0)
    rfl rfl rfl rfl rfl rfl (by decide) (by decide)⟩

/-! ## Records of other types -/

/-- Counterexample to C9 as stated: a `TYPE_ACCURACY` record describing a
zero-width field at offset 0 with `minValue < 0` and a 1-byte message, which
holds at least `byteOffset + byteSize = 0` bytes: the sign is read from
`message[0 + 0 - 1]`, beyond the message, and no flag is returned. -/
theorem getReportFieldValue_other_type_counterexample :
    0 + 0 ≤ ([0x03] : List Byte).length
    ∧ getReportFieldValue exactInt64 [0x03]
        { type := TYPE_ACCURACY, index := 3, maxValue := 3, minValue := -3,
          byteOffset := 0, byteSize := 0, a := 1, b := 0 } 7 = none := by
  decide

/-- C9, amended: for every record whose type is neither `TYPE_FLOAT` nor
`TYPE_INT64` (so in particular `TYPE_ACCURACY`), other than a zero-width field at
offset 0 with `minValue < 0`, and every message holding at least
`byteOffset + byteSize` bytes, `getReportFieldValue` leaves the output value as it
was before the call and returns the range check `minValue ≤ raw ≤ maxValue`. -/
theorem getReportFieldValue_other_type {F V : Type} (ops : ValueOps F V)
    (message : List Byte) (rec : ReportTranslateRecord F) (value : V)
    (hfloat : rec.type ≠ TYPE_FLOAT) (hint : rec.type ≠ TYPE_INT64)
    (hlen : rec.byteOffset + rec.byteSize ≤ message.length)
    (hsize : message.length < 2 ^ 64)
    (hok : 0 ≤ rec.minValue ∨ 1 ≤ rec.byteOffset + rec.byteSize) :
    TYPE_ACCURACY ≠ TYPE_FLOAT ∧ TYPE_ACCURACY ≠ TYPE_INT64
    ∧ ∃ v : Int,
        rawValue message rec = some v
        ∧ getReportFieldValue ops message rec value
            = some (decide (rec.minValue ≤ v ∧ v ≤ rec.maxValue), value) := by
  obtain ⟨v, hraw⟩ := rawValue_defined message rec hlen hsize hok
  refine ⟨by decide, by decide, v, hraw, ?_⟩
  rw [getReportFieldValue_of_raw ops message rec value v hraw, if_neg hfloat, if_neg hint]

/-- Instance of the amended C9: a `TYPE_ACCURACY` record over a 1-byte field. -/
theorem getReportFieldValue_other_type_witness :
    TYPE_ACCURACY ≠ TYPE_FLOAT ∧ TYPE_ACCURACY ≠ TYPE_INT64
    ∧ ∃ v : Int,
        rawValue [0x03]
          ({ type := TYPE_ACCURACY, index := 3, maxValue := 3, minValue := 0,
             byteOffset := 0, byteSize := 1, a := 1, b := 0 } : ReportTranslateRecord ℚ) = some v
        ∧ getReportFieldValue exactInt64 [0x03]
            { type := TYPE_ACCURACY, index := 3, maxValue := 3, minValue := 0,
              byteOffset := 0, byteSize := 1, a := 1, b := 0 } 7
            = some (decide ((0 : Int) ≤ v ∧ v ≤ 3), 7) :=
  getReportFieldValue_other_type exactInt64 [0x03]
    { type := TYPE_ACCURACY, index := 3, maxValue := 3, minValue := 0,
      byteOffset := 0, byteSize := 1, a := 1, b := 0 } 7
    (by decide) (by decide) (by decide) (by decide) (by decide)

/-! ## Round trip -/

/-- C10: for every `1 ≤ n ≤ 8`, every byte offset and every integer `x` with
`-2 ^ (8 n - 1) ≤ x < 2 ^ (8 n - 1)`, writing `x` as `n` little-endian
two's-complement bytes at the offset of a message and decoding with a
`TYPE_INT64` record with `minValue = -2 ^ (8 n - 1)`, `maxValue = 2 ^ (8 n - 1) - 1`
and `b = 0` returns valid with output `x`; and two byte strings of length `n`
that differ decode, both validly, to different values. -/
theorem getReportFieldValue_roundtrip {F V : Type} (ops : ValueOps F V)
    (message : List Byte) (byteOffset n : Nat) (x : Int) (index : Int) (a : F) (value : V)
    (h1 : 1 ≤ n) (h8 : n ≤ 8)
    (hlo : -2 ^ (8 * n - 1) ≤ x) (hhi : x < 2 ^ (8 * n - 1))
    (hlen : byteOffset + n ≤ message.length) (hsize : message.length < 2 ^ 64) :
    getReportFieldValue ops (writeField message byteOffset (encodeLE n x))
        { type := TYPE_INT64, index := index, maxValue := 2 ^ (8 * n - 1) - 1,
          minValue := -2 ^ (8 * n - 1), byteOffset := byteOffset, byteSize := n,
          a := a, b := 0 } value
      = some (true, ops.assignInt64 x)
    ∧ ∀ bs1 bs2 : List Byte, bs1.length = n → bs2.length = n → bs1 ≠ bs2 →
        ∃ v1 v2 : Int,
          getReportFieldValue exactInt64 (writeField message byteOffset bs1)
              { type := TYPE_INT64, index := index, maxValue := 2 ^ (8 * n - 1) - 1,
                minValue := -2 ^ (8 * n - 1), byteOffset := byteOffset, byteSize := n,
                a := 1, b := 0 } 0
            = some (true, v1)
          ∧ getReportFieldValue exactInt64 (writeField message byteOffset bs2)
              { type := TYPE_INT64, index := index, maxValue := 2 ^ (8 * n - 1) - 1,
                minValue := -2 ^ (8 * n - 1), byteOffset := byteOffset, byteSize := n,
                a := 1, b := 0 } 0
            = some (true, v2)
          ∧ v1 ≠ v2 := by
  constructor
  · have hn := encodeLE_length n x
    have h := decode_written ops message (encodeLE n x) byteOffset index a value
      (by omega) (by omega) (by omega) hsize
    rw [hn] at h
    rw [h]
    congr 3
    obtain ⟨hdlo, hdhi, hdvd⟩ := decoded_range n (leValue (encodeLE n x)) h1
      (by have := leValue_lt (encodeLE n x); rwa [hn] at this)
    have hx := leValue_encodeLE n x
    rw [two_pow_eq n h1] at hlo hhi
    have hdiv := dvd_add hdvd hx
    have hq : (256 : Int) ^ n = 256 * 256 ^ (n - 1) := by
      rw [← pow_succ', show n - 1 + 1 = n by omega]
    have hpos : (0 : Int) < 256 ^ (n - 1) := by positivity
    generalize ((leValue (encodeLE n x) : Nat) : Int)
      - (if 128 * 256 ^ (n - 1) ≤ leValue (encodeLE n x) then 256 ^ n else 0) = d at *
    have hzero := Int.eq_zero_of_abs_lt_dvd hdiv (by
      rw [abs_lt, hq]
      constructor <;> linarith)
    linarith
  · intro bs1 bs2 hl1 hl2 hne
    have e1 := decode_written exactInt64 message bs1 byteOffset index 1 0
      (by omega) (by omega) (by omega) hsize
    have e2 := decode_written exactInt64 message bs2 byteOffset index 1 0
      (by omega) (by omega) (by omega) hsize
    rw [hl1] at e1
    rw [hl2] at e2
    refine ⟨_, _, e1, e2, ?_⟩
    intro heq
    apply hne
    apply leValue_injective bs1 bs2 (by omega)
    have s1 := leValue_lt bs1
    have s2 := leValue_lt bs2
    rw [hl1] at s1
    rw [hl2] at s2
    obtain ⟨-, -, d1⟩ := decoded_range n (leValue bs1) h1 s1
    obtain ⟨-, -, d2⟩ := decoded_range n (leValue bs2) h1 s2
    simp only [exactInt64] at heq
    rw [heq] at d1
    have hdiv := dvd_sub d2 d1
    have hzero := Int.eq_zero_of_abs_lt_dvd hdiv (by
      rw [abs_lt]
      have c1 : ((leValue bs1 : Nat) : Int) < 256 ^ n := by exact_mod_cast s1
      have c2 : ((leValue bs2 : Nat) : Int) < 256 ^ n := by exact_mod_cast s2
      constructor <;> linarith)
    have : ((leValue bs1 : Nat) : Int) = leValue bs2 := by linarith
    exact_mod_cast this

/-- Instance of C10: the value -2 written as 2 bytes at offset 1 of a 4-byte
message. -/
theorem getReportFieldValue_roundtrip_witness :
    getReportFieldValue exactInt64 (writeField [0x11, 0x22, 0x33, 0x44] 1 (encodeLE 2 (-2)))
        { type := TYPE_INT64, index := 0, maxValue := 2 ^ (8 * 2 - 1) - 1,
          minValue := -2 ^ (8 * 2 - 1), byteOffset := 1, byteSize := 2,
          a := 1, b := 0 } 0
      = some (true, exactInt64.assignInt64 (-2))
    ∧ ∀ bs1 bs2 : List Byte, bs1.length = 2 → bs2.length = 2 → bs1 ≠ bs2 →
        ∃ v1 v2 : Int,
          getReportFieldValue exactInt64 (writeField [0x11, 0x22, 0x33, 0x44] 1 bs1)
              { type := TYPE_INT64, index := 0, maxValue := 2 ^ (8 * 2 - 1) - 1,
                minValue := -2 ^ (8 * 2 - 1), byteOffset := 1, byteSize := 2,
                a := 1, b := 0 } 0
            = some (true, v1)
          ∧ getReportFieldValue exactInt64 (writeField [0x11, 0x22, 0x33, 0x44] 1 bs2)
              { type := TYPE_INT64, index := 0, maxValue := 2 ^ (8 * 2 - 1) - 1,
                minValue := -2 ^ (8 * 2 - 1), byteOffset := 1, byteSize := 2,
                a := 1, b := 0 } 0
            = some (true, v2)
          ∧ v1 ≠ v2 :=
  getReportFieldValue_roundtrip exactInt64 [0x11, 0x22, 0x33, 0x44] 1 2 (-2) 0 1 0
    (by decide) (by decide) (by decide) (by decide) (by decide) (by decide)

/-! ## Head-tracker capability encoding -/

theorem expectChars_append (p rest : List Char) : expectChars p (p ++ rest) = some rest := by
  induction p with
  | nil => cases rest <;> rfl
  | cons c cs ih => simp [expectChars, ih]

theorem spanDigits_append (ds : List Char) (c : Char) (rest : List Char)
    (hds : ∀ d ∈ ds, d.isDigit = true) (hc : c.isDigit = false) :
    spanDigits (ds ++ c :: rest) = (ds, c :: rest) := by
  induction ds with
  | nil => simp [spanDigits, hc]
  | cons d t ih =>
    have hd : d.isDigit = true := hds d (List.mem_cons_self _ _)
    have ht := ih (fun e he => hds e (List.mem_cons_of_mem _ he))
    simp [spanDigits, hd, ht]

theorem readNumber_append (ds : List Char) (c : Char) (rest : List Char)
    (hne : ds ≠ []) (hds : ∀ d ∈ ds, d.isDigit = true) (hc : c.isDigit = false) :
    readNumber (ds ++ c :: rest) = some (decimalValue ds, c :: rest) := by
  unfold readNumber
  rw [spanDigits_append ds c rest hds hc]
  cases ds with
  | nil => exact absurd rfl hne
  | cons d t => rfl

theorem detect_versioned (majorDigits minorDigits capabilityText : List Char)
    (hmajor : majorDigits ≠ []) (hminor : minorDigits ≠ [])
    (hmd : ∀ c ∈ majorDigits, c.isDigit = true) (hnd : ∀ c ∈ minorDigits, c.isDigit = true)
    (hversion : kLeAudioCapabilitiesMajorVersion ≤ decimalValue majorDigits)
    (capability : Nat) (hcap : readNumber capabilityText = some (capability, [])) :
    detectAndroidHeadTrackerSensor
        (String.mk ("#AndroidHeadTracker#".toList ++ (majorDigits ++ '.' ::
          (minorDigits ++ '#' :: capabilityText))))
      = some { acl := capability &&& kAclBitMask != 0,
               iso := capability &&& kIsoBitMask != 0 } := by
  unfold detectAndroidHeadTrackerSensor
  have hs : ∀ cs : List Char, (String.mk cs).toList = cs := fun _ => rfl
  simp only [hs, expectChars_append,
    readNumber_append majorDigits '.' _ hmajor hmd (by decide),
    readNumber_append minorDigits '#' _ hminor hnd (by decide), hcap, if_pos hversion]

/-- C8: with `kLeAudioCapabilitiesMajorVersion = 2`, `kAclBitMask = 0x1` and
`kIsoBitMask = 0x2`, the description `#AndroidHeadTracker#2.0#3` is a head
tracker with both the ACL and the ISO flag set, and `#AndroidHeadTracker#1.0#3`
is a head tracker with no transport flagged, major version 1 being below the
threshold; and for every major version of at least 2 (any digits for the major
and the minor version) capability 1 selects ACL only, 2 selects ISO only and 3
selects both. -/
theorem detectAndroidHeadTrackerSensor_capabilities :
    (kLeAudioCapabilitiesMajorVersion = 2 ∧ kAclBitMask = 0x1 ∧ kIsoBitMask = 0x2)
    ∧ detectAndroidHeadTrackerSensor "#AndroidHeadTracker#2.0#3"
        = some { acl := true, iso := true }
    ∧ detectAndroidHeadTrackerSensor "#AndroidHeadTracker#1.0#3"
        = some { acl := false, iso := false }
    ∧ ∀ (majorDigits minorDigits : List Char),
        majorDigits ≠ [] → minorDigits ≠ [] →
        (∀ c ∈ majorDigits, c.isDigit = true) → (∀ c ∈ minorDigits, c.isDigit = true) →
        kLeAudioCapabilitiesMajorVersion ≤ decimalValue majorDigits →
        detectAndroidHeadTrackerSensor
            (String.mk ("#AndroidHeadTracker#".toList ++ (majorDigits ++ '.' ::
              (minorDigits ++ ['#', '1']))))
          = some { acl := true, iso := false }
        ∧ detectAndroidHeadTrackerSensor
            (String.mk ("#AndroidHeadTracker#".toList ++ (majorDigits ++ '.' ::
              (minorDigits ++ ['#', '2']))))
          = some { acl := false, iso := true }
        ∧ detectAndroidHeadTrackerSensor
            (String.mk ("#AndroidHeadTracker#".toList ++ (majorDigits ++ '.' ::
              (minorDigits ++ ['#', '3']))))
          = some { acl := true, iso := true } := by
  refine ⟨⟨rfl, rfl, rfl⟩, by decide, by decide, ?_⟩
  intro majorDigits minorDigits hmajor hminor hmd hnd hversion
  refine ⟨?_, ?_, ?_⟩
  · exact detect_versioned majorDigits minorDigits ['1'] hmajor hminor hmd hnd hversion 1
      (by decide)
  · exact detect_versioned majorDigits minorDigits ['2'] hmajor hminor hmd hnd hversion 2
      (by decide)
  · exact detect_versioned majorDigits minorDigits ['3'] hmajor hminor hmd hnd hversion 3
      (by decide)

/-- Instance of C8 at version 12.7. -/
theorem detectAndroidHeadTrackerSensor_capabilities_witness :
    detectAndroidHeadTrackerSensor
        (String.mk ("#AndroidHeadTracker#".toList ++ (['1', '2'] ++ '.' :: (['7'] ++ ['#', '1']))))
      = some { acl := true, iso := false }
    ∧ detectAndroidHeadTrackerSensor
        (String.mk ("#AndroidHeadTracker#".toList ++ (['1', '2'] ++ '.' :: (['7'] ++ ['#', '2']))))
      = some { acl := false, iso := true }
    ∧ detectAndroidHeadTrackerSensor
        (String.mk ("#AndroidHeadTracker#".toList ++ (['1', '2'] ++ '.' :: (['7'] ++ ['#', '3']))))
      = some { acl := true, iso := true } :=
  detectAndroidHeadTrackerSensor_capabilities.2.2.2 ['1', '2'] ['7']
    (by decide) (by decide) (by decide) (by decide) (by decide)

/-! ## Unsigned 8-byte fields -/

theorem toInt64_high (S : Nat) (hlo : 2 ^ 63 ≤ S) (hhi : S < 2 ^ 64) :
    toInt64 S = (S : Int) - 2 ^ 64 := by
  unfold toInt64
  have hmod : S % 2 ^ 64 = S := Nat.mod_eq_of_lt hhi
  rw [hmod, if_neg (by omega)]

theorem rawValue_unsigned_wide {F : Type} (message : List Byte) (rec : ReportTranslateRecord F)
    (hmin : 0 ≤ rec.minValue) (hbs : rec.byteSize = 8)
    (hlen : rec.byteOffset + 8 ≤ message.length) (hsize : message.length < 2 ^ 64) :
    rawValue message rec = some (toInt64 (accumulateLsbFirst message rec.byteOffset 8)) := by
  have hS := accumulateLsbFirst_lt message rec.byteOffset 8
  rw [rawValue_eq message rec (by omega) hsize (Or.inl hmin), hbs, loopCount_small _ (by norm_num),
    if_neg (fun hc => absurd hc.1 (by omega)), Nat.zero_mul, Nat.zero_add,
    Nat.mod_eq_of_lt (by norm_num at hS ⊢; omega)]

/-- C11: for every record with `minValue ≥ 0` and `byteSize = 8` and every message
holding at least `byteOffset + 8` bytes whose byte at `byteOffset + 7` has bit 7
set, the reconstructed raw integer is the unsigned little-endian value of the
eight bytes minus `2 ^ 64`, hence negative, and `getReportFieldValue` returns
`false` whatever `maxValue` is (and whatever `type`, `a` and `b` are): a value
of `2 ^ 63` or more is never reported valid, not even with
`maxValue = 2 ^ 63 - 1`. -/
theorem getReportFieldValue_unsigned_high_bit {F V : Type} (ops : ValueOps F V)
    (message : List Byte) (rec : ReportTranslateRecord F) (value : V)
    (hmin : 0 ≤ rec.minValue) (hbs : rec.byteSize = 8)
    (hlen : rec.byteOffset + 8 ≤ message.length) (hsize : message.length < 2 ^ 64)
    (htop : (message.getD (rec.byteOffset + 7) 0).val.testBit 7 = true) :
    (∃ u : Nat,
      u = ∑ i in Finset.range 8, (message.getD (rec.byteOffset + i) 0).val * 256 ^ i
      ∧ 2 ^ 63 ≤ u
      ∧ rawValue message rec = some ((u : Int) - 2 ^ 64)
      ∧ (u : Int) - 2 ^ 64 < 0
      ∧ (getReportFieldValue ops message rec value).map Prod.fst = some false
      ∧ ∀ (maxValue : Int) (type2 : Int) (a2 : F) (b2 : Int) (value2 : V),
          (getReportFieldValue ops message
            { type := type2, index := rec.index, maxValue := maxValue,
              minValue := rec.minValue, byteOffset := rec.byteOffset,
              byteSize := rec.byteSize, a := a2, b := b2 } value2).map Prod.fst
            = some false)
    ∧ getReportFieldValue exactInt64 [0x00, 0x00, 0x00, 0x00, 0x00, 0x00, 0x00, 0x80]
        { type := TYPE_INT64, index := 0, maxValue := 2 ^ 63 - 1, minValue := 0,
          byteOffset := 0, byteSize := 8, a := 1, b := 0 } 0
        = some (false, -2 ^ 63) := by
  have hS := accumulateLsbFirst_lt message rec.byteOffset 8
  have h128 : 128 ≤ (message.getD (rec.byteOffset + 8 - 1) 0).val :=
    (testBit_seven_iff _).1 htop
  have hhigh := (accumulateLsbFirst_top message rec.byteOffset 8 (by norm_num)).1 h128
  have hlo : 2 ^ 63 ≤ accumulateLsbFirst message rec.byteOffset 8 := by
    norm_num at hhigh ⊢; omega
  have hhi : accumulateLsbFirst message rec.byteOffset 8 < 2 ^ 64 := by
    norm_num at hS ⊢; omega
  have hneg : ((accumulateLsbFirst message rec.byteOffset 8 : Nat) : Int) - 2 ^ 64 < 0 := by
    have : ((accumulateLsbFirst message rec.byteOffset 8 : Nat) : Int) < 2 ^ 64 := by
      exact_mod_cast hhi
    linarith
  have hraw := rawValue_unsigned_wide message rec hmin hbs hlen hsize
  rw [toInt64_high _ hlo hhi] at hraw
  refine ⟨⟨accumulateLsbFirst message rec.byteOffset 8, accumulateLsbFirst_eq_sum _ _ _, hlo,
    hraw, hneg, ?_, ?_⟩, by decide⟩
  · rw [getReportFieldValue_of_raw ops message rec value _ hraw, Option.map_some']
    congr 1
    rw [decide_eq_false_iff_not]
    intro hc
    linarith [hc.1]
  · intro maxValue type2 a2 b2 value2
    have hraw2 := rawValue_unsigned_wide message
      ({ type := type2, index := rec.index, maxValue := maxValue,
         minValue := rec.minValue, byteOffset := rec.byteOffset,
         byteSize := rec.byteSize, a := a2, b := b2 } : ReportTranslateRecord F)
      hmin hbs hlen hsize
    rw [toInt64_high _ hlo hhi] at hraw2
    rw [getReportFieldValue_of_raw ops message _ value2 _ hraw2, Option.map_some']
    congr 1
    rw [decide_eq_false_iff_not]
    intro hc
    linarith [hc.1]

/-- Instance of C11: an 8-byte unsigned field at offset 1 with all bits set. -/
theorem getReportFieldValue_unsigned_high_bit_witness :
    ∃ u : Nat,
      u = ∑ i in Finset.range 8,
            (([0x00, 0xFF, 0xFF, 0xFF, 0xFF, 0xFF, 0xFF, 0xFF, 0xFF] : List Byte).getD
              (1 + i) 0).val * 256 ^ i
      ∧ 2 ^ 63 ≤ u
      ∧ rawValue [0x00, 0xFF, 0xFF, 0xFF, 0xFF, 0xFF, 0xFF, 0xFF, 0xFF]
          ({ type := TYPE_INT64, index := 0, maxValue := 2 ^ 63 - 1, minValue := 0,
             byteOffset := 1, byteSize := 8, a := 1, b := 0 } : ReportTranslateRecord ℚ)
          = some ((u : Int) - 2 ^ 64)
      ∧ (u : Int) - 2 ^ 64 < 0
      ∧ (getReportFieldValue exactInt64 [0x00, 0xFF, 0xFF, 0xFF, 0xFF, 0xFF, 0xFF, 0xFF, 0xFF]
          { type := TYPE_INT64, index := 0, maxValue := 2 ^ 63 - 1, minValue := 0,
            byteOffset := 1, byteSize := 8, a := 1, b := 0 } 0).map Prod.fst = some false
      ∧ ∀ (maxValue : Int) (type2 : Int) (a2 : ℚ) (b2 : Int) (value2 : Int),
          (getReportFieldValue exactInt64
            [0x00, 0xFF, 0xFF, 0xFF, 0xFF, 0xFF, 0xFF, 0xFF, 0xFF]
            { type := type2, index := 0, maxValue := maxValue, minValue := 0,
              byteOffset := 1, byteSize := 8, a := a2, b := b2 } value2).map Prod.fst
            = some false :=
  (getReportFieldValue_unsigned_high_bit exactInt64
    [0x00, 0xFF, 0xFF, 0xFF, 0xFF, 0xFF, 0xFF, 0xFF, 0xFF]
    { type := TYPE_INT64, index := 0, maxValue := 2 ^ 63 - 1, minValue := 0,
      byteOffset := 1, byteSize := 8, a := 1, b := 0 } 0
    (by decide) rfl (by decide) (by decide) (by decide)).1

end HidRawSensor
